import Mathlib

/-!
Shallow embedding of the AI-news-perspectives app core:
the response recovery parser `extractAndParseJSON` and the normalization
`processAIResponse` from `src/app/(tabs)/news.tsx`, and the retry loop of
`groqResponse` from `src/app/(tabs)/index.tsx`.

JavaScript strings are modelled as Lean `String` / `List Char` (UTF-16
subtleties for astral-plane characters are out of scope; none of the
verified properties depend on them).  JavaScript exceptions are modelled
with `Option`/`Except`; `JSON.parse` is modelled by a fuel-based
recursive-descent parser over `List Char` following the JSON grammar that
`JSON.parse` implements, with numbers kept as their source lexeme.
-/

namespace NewsApp

/-- The left-brace character, written via its code point. -/
def lbrace : Char := Char.ofNat 123

/-- The right-brace character, written via its code point. -/
def rbrace : Char := Char.ofNat 125

/-- The backtick character, written via its code point. -/
def btick : Char := Char.ofNat 96

/-- JavaScript whitespace (the `\s` class and `String.prototype.trim`):
space, tab, LF, CR, VT, FF, NBSP, the Unicode Space_Separator code points
(U+1680, U+2000 through U+200A, U+202F, U+205F, U+3000), the line and
paragraph separators, and the BOM. -/
def isJsWs (c : Char) : Bool :=
  c = ' ' || c = '\t' || c = '\n' || c = '\r' ||
  c.toNat = 11 || c.toNat = 12 || c.toNat = 160 ||
  c.toNat = 5760 || (8192 ≤ c.toNat && c.toNat ≤ 8202) ||
  c.toNat = 8232 || c.toNat = 8233 || c.toNat = 8239 ||
  c.toNat = 8287 || c.toNat = 12288 || c.toNat = 65279

/-- JSON-grammar whitespace, as accepted by `JSON.parse` between tokens:
space, tab, LF, CR only. -/
def isJsonWs (c : Char) : Bool :=
  c = ' ' || c = '\t' || c = '\n' || c = '\r'

/-- A JavaScript value produced by `JSON.parse`.  Numbers keep their
source lexeme (the app never computes with them, so the float value is
irrelevant to every property below).  Objects are insertion-ordered field
lists; the parser resolves duplicate keys like JavaScript does (last
assignment wins, first position kept), so parsed objects have unique keys. -/
inductive Json where
  | null
  | bool (b : Bool)
  | num (lexeme : String)
  | str (s : String)
  | arr (elems : List Json)
  | obj (fields : List (String × Json))

/-- Whether a value is a JSON/JS array (the `Array.isArray` test). -/
def Json.isArr : Json → Bool
  | .arr _ => true
  | _ => false

/-- Whether a value is a string. -/
def Json.isStr : Json → Bool
  | .str _ => true
  | _ => false

/-- Assigning `fields[k] := v` on a JS object: overwrite in place if the
key exists, else append. -/
def objInsert (fs : List (String × Json)) (k : String) (v : Json) :
    List (String × Json) :=
  match fs with
  | [] => [(k, v)]
  | (k', v') :: rest =>
      if k' = k then (k', v) :: rest else (k', v') :: objInsert rest k v

/-- Building a JS object from parsed members in order (duplicate keys:
last value wins, first position kept). -/
def buildObj (ms : List (String × Json)) : List (String × Json) :=
  ms.foldl (fun acc kv => objInsert acc kv.1 kv.2) []

/-- Skipping JSON whitespace. -/
def skipWs : List Char → List Char
  | [] => []
  | c :: cs => if isJsonWs c then skipWs cs else c :: cs

/-- Decimal digit test. -/
def isDigit (c : Char) : Bool := '0' ≤ c && c ≤ '9'

/-- The value of a hex digit, if any (for `\u` escapes). -/
def hexVal (c : Char) : Option Nat :=
  let n := c.toNat
  if 48 ≤ n ∧ n ≤ 57 then some (n - 48)
  else if 97 ≤ n ∧ n ≤ 102 then some (n - 87)
  else if 65 ≤ n ∧ n ≤ 70 then some (n - 55)
  else none

/-- Single-character JSON string escapes. -/
def escVal (e : Char) : Option Char :=
  if e = 'n' then some '\n'
  else if e = 't' then some '\t'
  else if e = 'r' then some '\r'
  else if e = 'b' then some (Char.ofNat 8)
  else if e = 'f' then some (Char.ofNat 12)
  else if e = '"' ∨ e = '/' ∨ e = '\\' then some e
  else none

/-- Parsing the body of a JSON string literal after the opening quote:
literal control characters are rejected (as `JSON.parse` does), escapes
are decoded.  Returns the decoded characters and the input after the
closing quote. -/
def parseStringChars : List Char → Option (List Char × List Char)
  | [] => none
  | c :: rest =>
      if c = '"' then some ([], rest)
      else if c = '\\' then
        match rest with
        | 'u' :: a :: b :: c2 :: d :: rest2 =>
            match hexVal a, hexVal b, hexVal c2, hexVal d with
            | some va, some vb, some vc, some vd =>
                match parseStringChars rest2 with
                | some (s, r) =>
                    some (Char.ofNat (((va * 16 + vb) * 16 + vc) * 16 + vd) :: s, r)
                | none => none
            | _, _, _, _ => none
        | e :: rest2 =>
            match escVal e with
            | some ch =>
                match parseStringChars rest2 with
                | some (s, r) => some (ch :: s, r)
                | none => none
            | none => none
        | [] => none
      else if c.toNat < 32 then none
      else
        match parseStringChars rest with
        | some (s, r) => some (c :: s, r)
        | none => none

/-- Greedily taking decimal digits. -/
def takeDigits : List Char → List Char × List Char
  | [] => ([], [])
  | c :: cs =>
      if isDigit c then
        let (ds, r) := takeDigits cs
        (c :: ds, r)
      else ([], c :: cs)

/-- Parsing the integer part of a JSON number after the optional sign:
either a lone `0` or a nonzero digit followed by digits. -/
def parseIntPart (cs : List Char) : Option (List Char × List Char) :=
  match cs with
  | '0' :: rest => some (['0'], rest)
  | c :: rest =>
      if isDigit c then
        let (ds, r) := takeDigits rest
        some (c :: ds, r)
      else none
  | [] => none

/-- Parsing the optional fraction part (`.` then one-or-more digits). -/
def parseFracPart (cs : List Char) : Option (List Char × List Char) :=
  match cs with
  | '.' :: rest =>
      let (ds, r) := takeDigits rest
      if ds.isEmpty then none else some ('.' :: ds, r)
  | _ => some ([], cs)

/-- Parsing the optional exponent part. -/
def parseExpPart (cs : List Char) : Option (List Char × List Char) :=
  match cs with
  | c :: rest =>
      if c = 'e' || c = 'E' then
        match rest with
        | s :: rest2 =>
            if s = '+' || s = '-' then
              let (ds, r) := takeDigits rest2
              if ds.isEmpty then none else some (c :: s :: ds, r)
            else
              let (ds, r) := takeDigits rest
              if ds.isEmpty then none else some (c :: ds, r)
        | [] => none
      else some ([], cs)
  | [] => some ([], cs)

/-- Parsing a JSON number into its lexeme. -/
def parseNumLex (cs : List Char) : Option (List Char × List Char) :=
  let (sgn, cs1) : List Char × List Char :=
    match cs with
    | '-' :: r => (['-'], r)
    | _ => ([], cs)
  match parseIntPart cs1 with
  | none => none
  | some (ip, cs2) =>
      match parseFracPart cs2 with
      | none => none
      | some (fp, cs3) =>
          match parseExpPart cs3 with
          | none => none
          | some (ep, cs4) => some (sgn ++ ip ++ fp ++ ep, cs4)

mutual

/-- Parsing one JSON value (leading whitespace allowed); `fuel` only
decreases when descending into arrays/objects, so any fuel larger than
the input length suffices. -/
def parseValue : Nat → List Char → Option (Json × List Char)
  | 0, _ => none
  | fuel + 1, cs =>
      match skipWs cs with
      | [] => none
      | c :: rest =>
          if c = '"' then
            match parseStringChars rest with
            | some (s, r) => some (Json.str (String.mk s), r)
            | none => none
          else if c = lbrace then
            match skipWs rest with
            | r1 =>
                match r1 with
                | c1 :: r2 =>
                    if c1 = rbrace then some (Json.obj [], r2)
                    else
                      match parseMembers fuel (c1 :: r2) with
                      | some (ms, r3) => some (Json.obj (buildObj ms), r3)
                      | none => none
                | [] => none
          else if c = '[' then
            match skipWs rest with
            | c1 :: r2 =>
                if c1 = ']' then some (Json.arr [], r2)
                else
                  match parseElems fuel (c1 :: r2) with
                  | some (vs, r3) => some (Json.arr vs, r3)
                  | none => none
            | [] =>
                match parseElems fuel [] with
                | some (vs, r3) => some (Json.arr vs, r3)
                | none => none
          else if c = 't' then
            match rest with
            | 'r' :: 'u' :: 'e' :: r => some (Json.bool true, r)
            | _ => none
          else if c = 'f' then
            match rest with
            | 'a' :: 'l' :: 's' :: 'e' :: r => some (Json.bool false, r)
            | _ => none
          else if c = 'n' then
            match rest with
            | 'u' :: 'l' :: 'l' :: r => some (Json.null, r)
            | _ => none
          else if c = '-' || isDigit c then
            match parseNumLex (c :: rest) with
            | some (lex, r) => some (Json.num (String.mk lex), r)
            | none => none
          else none

/-- Parsing one-or-more comma-separated array elements up to `]`. -/
def parseElems : Nat → List Char → Option (List Json × List Char)
  | 0, _ => none
  | fuel + 1, cs =>
      match parseValue fuel cs with
      | none => none
      | some (v, r) =>
          match skipWs r with
          | ',' :: r2 =>
              match parseElems fuel r2 with
              | some (vs, r3) => some (v :: vs, r3)
              | none => none
          | ']' :: r2 => some ([v], r2)
          | _ => none

/-- Parsing one-or-more comma-separated object members up to the closing
brace (returned raw, in source order). -/
def parseMembers : Nat → List Char → Option (List (String × Json) × List Char)
  | 0, _ => none
  | fuel + 1, cs =>
      match skipWs cs with
      | '"' :: r1 =>
          match parseStringChars r1 with
          | some (k, r2) =>
              match skipWs r2 with
              | ':' :: r3 =>
                  match parseValue fuel r3 with
                  | some (v, r4) =>
                      match skipWs r4 with
                      | c2 :: r5 =>
                          if c2 = ',' then
                            match parseMembers fuel r5 with
                            | some (ms, r6) =>
                                some ((String.mk k, v) :: ms, r6)
                            | none => none
                          else if c2 = rbrace then
                            some ([(String.mk k, v)], r5)
                          else none
                      | [] => none
                  | none => none
              | _ => none
          | none => none
      | _ => none

end

/-- The model of `JSON.parse` on a character list: one value, then only
whitespace may remain. -/
def jsonParseL (cs : List Char) : Option Json :=
  match parseValue (cs.length + 2) cs with
  | some (v, r) =>
      match skipWs r with
      | [] => some v
      | _ => none
  | none => none

/-- The model of `JSON.parse` on a string. -/
def jsonParse (s : String) : Option Json :=
  jsonParseL s.toList

/-- The model of `String.prototype.trim`. -/
def jsTrimL (cs : List Char) : List Char :=
  ((cs.dropWhile isJsWs).reverse.dropWhile isJsWs).reverse

/-- Dropping one leading newline, if present (the `\n?` tail of the
code-fence regexes). -/
def dropNl : List Char → List Char
  | '\n' :: r => r
  | r => r

/-- One global pass of `.replace(/PAT\n?/g, '')` for a literal pattern
`p :: ps`: scan left to right, deleting each occurrence of the pattern
together with one optional following newline.  Structural on `fuel`
(any fuel above the input length is enough) so that the kernel can
evaluate it. -/
def stripFencePassF (p : Char) (ps : List Char) : Nat → List Char → List Char
  | 0, _ => []
  | _, [] => []
  | fuel + 1, c :: cs =>
      if (p :: ps).isPrefixOf (c :: cs) then
        stripFencePassF p ps fuel (dropNl (cs.drop ps.length))
      else
        c :: stripFencePassF p ps fuel cs

/-- One fence-stripping pass with enough fuel. -/
def stripFencePass (p : Char) (ps : List Char) (cs : List Char) : List Char :=
  stripFencePassF p ps (cs.length + 1) cs

/-- The two fence-stripping passes of the parser, in source order:
first `.replace(/```json\n?/g, '')`, then `.replace(/```\n?/g, '')`. -/
def stripFences (cs : List Char) : List Char :=
  stripFencePass btick [btick, btick]
    (stripFencePass btick [btick, btick, 'j', 's', 'o', 'n'] cs)

/-- The character class removed by the control-character cleanup:
`[\u0000-\u001F\u007F-\u009F]`. -/
def isCtrlStrip (c : Char) : Bool :=
  c.toNat ≤ 31 || (127 ≤ c.toNat && c.toNat ≤ 159)

/-- Removing control and non-printable characters. -/
def stripControl (cs : List Char) : List Char :=
  cs.filter (fun c => !isCtrlStrip c)

/-- The model of `String.prototype.indexOf` for one character. -/
def firstIdxOf : List Char → Char → Option Nat
  | [], _ => none
  | c :: cs, t => if c = t then some 0 else (firstIdxOf cs t).map (· + 1)

/-- The model of `String.prototype.lastIndexOf` for one character. -/
def lastIdxOf (cs : List Char) (t : Char) : Option Nat :=
  (firstIdxOf cs.reverse t).map (fun i => cs.length - 1 - i)

/-- Whether tier 1 chooses array delimiters: mirrors
`firstArrayStart !== -1 && (firstObjectStart === -1 || firstArrayStart <
firstObjectStart)`. -/
def chooseArray (ct : List Char) : Bool :=
  match firstIdxOf ct '[', firstIdxOf ct lbrace with
  | some fa, some fo => fa < fo
  | some _, none => true
  | none, _ => false

/-- The delimiter selection of tier 1 (`jsonStart`/`jsonEnd`, with `none`
for the `-1` sentinel). -/
def tierOneSel (ct : List Char) : Option Nat × Option Nat :=
  if chooseArray ct then (firstIdxOf ct '[', lastIdxOf ct ']')
  else
    match firstIdxOf ct lbrace with
    | some fo => (some fo, lastIdxOf ct rbrace)
    | none => (none, none)

/-- The validity check of tier 1: `jsonStart === -1 || jsonEnd === -1 ||
jsonEnd <= jsonStart` throws. -/
def tierOneBounds (ct : List Char) : Option (Nat × Nat) :=
  match tierOneSel ct with
  | (some s, some e) => if e ≤ s then none else some (s, e)
  | _ => none

/-- The model of `String.prototype.substring(a, b)` for `a ≤ b`. -/
def jsSubstringL (cs : List Char) (a b : Nat) : List Char :=
  (cs.take b).drop a

/-- Lookahead for the `,\s*CLOSER` regexes: if the input is whitespace
followed by the closer, return what follows the closer. -/
def matchWsClose (closer : Char) (cs : List Char) : Option (List Char) :=
  match cs.dropWhile isJsWs with
  | c :: rest => if c = closer then some rest else none
  | [] => none

/-- One global pass of `.replace(/,\s*CLOSER/g, 'CLOSER')`: each comma
followed by optional whitespace and the closer is collapsed to just the
closer, scanning left to right and continuing after each replacement.
Structural on `fuel`. -/
def replaceCommaCloseF (closer : Char) : Nat → List Char → List Char
  | 0, _ => []
  | _, [] => []
  | fuel + 1, c :: cs =>
      if c = ',' then
        match matchWsClose closer cs with
        | some rest => closer :: replaceCommaCloseF closer fuel rest
        | none => ',' :: replaceCommaCloseF closer fuel cs
      else
        c :: replaceCommaCloseF closer fuel cs

/-- One comma-cleanup pass with enough fuel. -/
def replaceCommaClose (closer : Char) (cs : List Char) : List Char :=
  replaceCommaCloseF closer (cs.length + 1) cs

/-- The `.replace(/\n/g, ' ')` pass. -/
def mapNlToSpace (cs : List Char) : List Char :=
  cs.map (fun c => if c = '\n' then ' ' else c)

/-- The `.replace(/\s+/g, ' ')` pass: each maximal whitespace run becomes
one space.  Structural on `fuel`. -/
def collapseWsF : Nat → List Char → List Char
  | 0, _ => []
  | _, [] => []
  | fuel + 1, c :: cs =>
      if isJsWs c then ' ' :: collapseWsF fuel (cs.dropWhile isJsWs)
      else c :: collapseWsF fuel cs

/-- The whitespace-collapsing pass with enough fuel. -/
def collapseWs (cs : List Char) : List Char :=
  collapseWsF (cs.length + 1) cs

/-- The "additional cleanup" chain applied to the extracted substring, in
source order: strip trailing commas before braces, then before brackets,
then newlines to spaces, then whitespace runs to single spaces. -/
def cleanupJson (cs : List Char) : List Char :=
  collapseWs (mapNlToSpace (replaceCommaClose ']' (replaceCommaClose rbrace cs)))

/-- The cleaned text of tier 1: trim, strip code fences, strip control
characters — in source order. -/
def cleanOf (aiText : String) : List Char :=
  stripControl (stripFences (jsTrimL aiText.toList))

/-- Tier 1 of `extractAndParseJSON` (the strict-with-repair tier): `none`
models a thrown exception. -/
def tier1 (aiText : String) : Option (List Json) :=
  let ct := cleanOf aiText
  match tierOneBounds ct with
  | none => none
  | some (s, e) =>
      match jsonParseL (cleanupJson (jsSubstringL ct s (e + 1))) with
      | some (Json.arr xs) => some xs
      | some v => some [v]
      | none => none

/-- The literal part of the tier-2 salvage regex
`/"Generated article":\s*"([^"]+)"/g`. -/
def gaPat : List Char := '"' :: "Generated article".toList ++ ['"', ':']

/-- Trying the tier-2 regex at the head of the input: on success, return
the captured group and the input after the match. -/
def tryMatchGA (cs : List Char) : Option (List Char × List Char) :=
  if gaPat.isPrefixOf cs then
    match (cs.drop gaPat.length).dropWhile isJsWs with
    | q :: r2 =>
        if q = '"' then
          match r2.takeWhile (fun c => c ≠ '"'), r2.dropWhile (fun c => c ≠ '"') with
          | [], _ => none
          | _, [] => none
          | cap, _ :: rest => some (cap, rest)
        else none
    | [] => none
  else none

/-- The tier-2 global regex scan: collect all non-overlapping matches of
the salvage pattern, left to right.  Structural on `fuel`. -/
def salvageScanF : Nat → List Char → List (List Char)
  | 0, _ => []
  | _, [] => []
  | fuel + 1, c :: cs =>
      match tryMatchGA (c :: cs) with
      | some (cap, rest) => cap :: salvageScanF fuel rest
      | none => salvageScanF fuel cs

/-- The tier-2 scan with enough fuel. -/
def salvageScan (cs : List Char) : List (List Char) :=
  salvageScanF (cs.length + 1) cs

/-- The `.replace(/\\n/g, '\n')` unescape applied to each capture. -/
def replaceEscNl : List Char → List Char
  | [] => []
  | [c] => [c]
  | c1 :: c2 :: cs =>
      if c1 = '\\' && c2 = 'n' then '\n' :: replaceEscNl cs
      else c1 :: replaceEscNl (c2 :: cs)

/-- The `.replace(/\\"/g, '"')` unescape applied to each capture (dead in
practice: a capture of `[^"]+` never contains a quote). -/
def replaceEscQuote : List Char → List Char
  | [] => []
  | [c] => [c]
  | c1 :: c2 :: cs =>
      if c1 = '\\' && c2 = '"' then '"' :: replaceEscQuote cs
      else c1 :: replaceEscQuote (c2 :: cs)

/-- One salvaged tier-2 record. -/
def mkGA (cap : List Char) : Json :=
  Json.obj [("Generated article",
    Json.str (String.mk (replaceEscQuote (replaceEscNl cap))))]

/-- Tier 2 of `extractAndParseJSON`: the regex-salvage articles. -/
def salvageArticles (aiText : String) : List Json :=
  (salvageScan aiText.toList).map mkGA

/-- The response recovery parser `extractAndParseJSON` of
`src/app/(tabs)/news.tsx`: tier 1 (strict with repair), else tier 2
(regex salvage) when it finds at least one match, else tier 3 (the whole
text as a single generated article). -/
def extractAndParseJSON (aiText : String) : List Json :=
  match tier1 aiText with
  | some xs => xs
  | none =>
      let ms := salvageArticles aiText
      if ms.isEmpty then [Json.obj [("Generated article", Json.str aiText)]]
      else ms

/-- A lowercase hex digit (for `JSON.stringify` control escapes). -/
def hexDigitChar (n : Nat) : Char :=
  if n < 10 then Char.ofNat ('0'.toNat + n) else Char.ofNat ('a'.toNat + n - 10)

/-- How `JSON.stringify` escapes one character inside a string literal. -/
def escChar (c : Char) : List Char :=
  if c = '"' then ['\\', '"']
  else if c = '\\' then ['\\', '\\']
  else if c = '\n' then ['\\', 'n']
  else if c = '\r' then ['\\', 'r']
  else if c = '\t' then ['\\', 't']
  else if c.toNat = 8 then ['\\', 'b']
  else if c.toNat = 12 then ['\\', 'f']
  else if c.toNat < 32 then
    ['\\', 'u', '0', '0', hexDigitChar (c.toNat / 16), hexDigitChar (c.toNat % 16)]
  else [c]

/-- Escaping a whole string body. -/
def escapeChars : List Char → List Char
  | [] => []
  | c :: cs => escChar c ++ escapeChars cs

/-- Rendering a string literal with quotes. -/
def serStrL (s : String) : List Char :=
  '"' :: (escapeChars s.toList ++ ['"'])

mutual

/-- The model of `JSON.stringify` (compact form, no spacing), producing
characters.  Numbers are rendered by their stored lexeme (exact for the
values that occur here; float re-formatting is out of scope). -/
def serJson : Json → List Char
  | .null => "null".toList
  | .bool true => "true".toList
  | .bool false => "false".toList
  | .num lx => lx.toList
  | .str s => serStrL s
  | .arr xs => '[' :: (serElems xs ++ [']'])
  | .obj fs => lbrace :: (serFields fs ++ [rbrace])

/-- Array elements, comma-separated. -/
def serElems : List Json → List Char
  | [] => []
  | x :: xs => serJson x ++ serElemsTail xs

/-- The `,`-prefixed tail of an element list. -/
def serElemsTail : List Json → List Char
  | [] => []
  | x :: xs => ',' :: (serJson x ++ serElemsTail xs)

/-- Object members, comma-separated. -/
def serFields : List (String × Json) → List Char
  | [] => []
  | (k, v) :: fs => serStrL k ++ (':' :: serJson v) ++ serFieldsTail fs

/-- The `,`-prefixed tail of a member list. -/
def serFieldsTail : List (String × Json) → List Char
  | [] => []
  | (k, v) :: fs => ',' :: (serStrL k ++ (':' :: serJson v) ++ serFieldsTail fs)

end

/-- The model of `JSON.stringify` on a value. -/
def jsonStringify (v : Json) : String := String.mk (serJson v)

/-- Whether a value is `null`. -/
def Json.isNull : Json → Bool
  | .null => true
  | _ => false

/-- Whether a JSON number lexeme denotes zero (the only falsy numbers
reachable here): every mantissa digit is `0`. -/
def numIsZero (lx : String) : Bool :=
  (lx.toList.takeWhile (fun c => c ≠ 'e' && c ≠ 'E')).all
    (fun c => c = '-' || c = '0' || c = '.')

/-- JavaScript truthiness of a parsed JSON value. -/
def truthy : Json → Bool
  | .null => false
  | .bool b => b
  | .num lx => !numIsZero lx
  | .str s => s ≠ ""
  | .arr _ => true
  | .obj _ => true

/-- First field with the given key (parsed objects have unique keys). -/
def lookupField : List (String × Json) → String → Option Json
  | [], _ => none
  | (k, v) :: fs, t => if k = t then some v else lookupField fs t

/-- Property read `v[k]` on a non-null value: a field of an object, else
`undefined` (modelled as `none`). -/
def propOf (v : Json) (k : String) : Option Json :=
  match v with
  | .obj fs => lookupField fs k
  | _ => none

/-- The JS `a || b` where `a` may be `undefined` (`none`) and `b` is the
final default: first truthy operand, else the default. -/
def jsOrJ (a : Option Json) (b : Json) : Json :=
  match a with
  | some v => if truthy v then v else b
  | none => b

/-- The JS `a || b` on two values. -/
def jsOrJJ (a b : Json) : Json := if truthy a then a else b

/-- The model of `String.prototype.substring(a, b)` on strings (`a ≤ b`;
both uses in the source are `(0, 60)` and `(0, 200)`). -/
def jsSubstringS (s : String) (a b : Nat) : String :=
  String.mk (jsSubstringL s.toList a b)

/-- The model of `s.split(t)[0]` for a one-character separator. -/
def takeUntilChar (s : String) (t : Char) : String :=
  String.mk (s.toList.takeWhile (fun c => c ≠ t))

/-- The first chunk of `s.split(sep)[0]` for the two-character separator
`"\n\n"`: everything before the first adjacent pair `a, b`. -/
def upToSub2 (a b : Char) : List Char → List Char
  | [] => []
  | [c] => [c]
  | c1 :: c2 :: cs =>
      if c1 = a && c2 = b then [] else c1 :: upToSub2 a b (c2 :: cs)

/-- The model of `String.prototype.startsWith`. -/
def jsStartsWith (s pre : String) : Bool :=
  pre.toList.isPrefixOf s.toList

/-- The default title `` `${person}'s Perspective on Current Events` ``. -/
def defaultTitle (person : String) : String :=
  person ++ "\x27s Perspective on Current Events"

/-- The title-derivation block (news.tsx lines 133-139) applied to the
resolved title and the generated content: `if (!title && generatedContent)`
derive the title from the first sentence.  Errors model the `TypeError`
of calling `.split` on a truthy non-string. -/
def mkTitle (title0 gc : Json) : Except Unit Json :=
  if !truthy title0 && truthy gc then
    match gc with
    | .str s =>
        let firstSentence := takeUntilChar s '.'
        .ok (.str (if 80 < firstSentence.length
          then jsSubstringS s 0 60 ++ "..."
          else firstSentence ++ "."))
    | _ => .error ()
  else .ok title0

/-- The summary block (news.tsx lines 142-148): first paragraph of the
generated content, truncated at 200 characters. -/
def mkSummary (gc : Json) : Except Unit String :=
  if truthy gc then
    match gc with
    | .str s =>
        let fp0 := String.mk (upToSub2 '\n' '\n' s.toList)
        let fp := if fp0 ≠ "" then fp0 else takeUntilChar s '\n'
        .ok (if 200 < fp.length then jsSubstringS fp 0 200 ++ "..." else fp)
    | _ => .error ()
  else .ok ""

/-- The record field `summary: summary || generatedContent.substring(0,
200) + '...'`. -/
def mkFinalSummary (summary : String) (gc : Json) : Except Unit Json :=
  if summary ≠ "" then .ok (.str summary)
  else
    match gc with
    | .str s => .ok (.str (jsSubstringS s 0 200 ++ "..."))
    | _ => .error ()

/-- The verification flag `!!(sourceUrl && sourceUrl.startsWith('http'))`;
errors model the `TypeError` of calling `.startsWith` on a truthy
non-string. -/
def verifyOf (u : Json) : Except Unit Bool :=
  if truthy u then
    match u with
    | .str s => .ok (jsStartsWith s "http")
    | _ => .error ()
  else .ok false

/-- The fixed stock-photo pool of `getRandomNewsImage`. -/
def newsImages : List String :=
  ["https://images.pexels.com/photos/518543/pexels-photo-518543.jpeg?auto=compress&cs=tinysrgb&w=800",
   "https://images.pexels.com/photos/1591056/pexels-photo-1591056.jpeg?auto=compress&cs=tinysrgb&w=800",
   "https://images.pexels.com/photos/1591447/pexels-photo-1591447.jpeg?auto=compress&cs=tinysrgb&w=800",
   "https://images.pexels.com/photos/1591061/pexels-photo-1591061.jpeg?auto=compress&cs=tinysrgb&w=800",
   "https://images.pexels.com/photos/163064/play-stone-network-networked-interactive-163064.jpeg?auto=compress&cs=tinysrgb&w=800"]

/-- The round-robin image assignment `newsImages[index % newsImages.length]`. -/
def getRandomNewsImage (idx : Nat) : String :=
  newsImages.getD (idx % 5) ""

/-- One normalized display record (the object literal of news.tsx lines
153-169 and the fallback of lines 176-188).  `Option Json` fields are
object properties that the fallback record does not set. -/
structure GenRecord where
  id : String
  title : Json
  originalTitle : Option Json
  summary : Json
  originalSummary : Option Json
  imageUrl : String
  publishedAt : Json
  originalUrl : Json
  source : Json
  aiGenerated : Bool
  isVerified : Bool
  generatedArticle : Json
  inputPersonName : String
  sourceURLKey : Option Json
  originalTitleKey : Option Json

/-- The element read `newsData[idx] || {}`. -/
def newsItemAt (newsData : List Json) (idx : Nat) : Json :=
  match newsData.get? idx with
  | some v => if truthy v then v else Json.obj []
  | none => Json.obj []

/-- Normalizing one parsed article against its positionally matched
real-news item (the body of the `aiArticles.map` callback).  A `.error`
models a thrown `TypeError` (property read on `null`, or a string method
on a truthy non-string), which the caller's `catch` turns into the
fallback record. -/
def mapArticle (person : String) (idx : Nat) (article realItem : Json) :
    Except Unit GenRecord :=
  if article.isNull || realItem.isNull then .error ()
  else
    match mkTitle (jsOrJ (propOf article "Original title")
        (jsOrJ (propOf realItem "title") (Json.str "")))
      (jsOrJ (propOf article "Generated article") (Json.str "")) with
    | .error e => .error e
    | .ok title1 =>
        match mkSummary (jsOrJ (propOf article "Generated article") (Json.str "")) with
        | .error e => .error e
        | .ok summary =>
            match verifyOf (jsOrJ (propOf article "Source URL")
                (jsOrJ (propOf realItem "url") (Json.str ""))) with
            | .error e => .error e
            | .ok isV =>
                match mkFinalSummary summary
                    (jsOrJ (propOf article "Generated article") (Json.str "")) with
                | .error e => .error e
                | .ok finalSummary =>
                    .ok { id := toString (idx + 1),
                          title := jsOrJJ title1 (Json.str (defaultTitle person)),
                          originalTitle :=
                            some (jsOrJ (propOf realItem "title") (Json.str "")),
                          summary := finalSummary,
                          originalSummary :=
                            some (jsOrJ (propOf realItem "summary") (Json.str "")),
                          imageUrl := getRandomNewsImage idx,
                          publishedAt := jsOrJ (propOf article "Timestamp")
                            (jsOrJ (propOf realItem "published") (Json.str "Today")),
                          originalUrl := jsOrJ (propOf article "Source URL")
                            (jsOrJ (propOf realItem "url") (Json.str "")),
                          source :=
                            jsOrJ (propOf realItem "source") (Json.str "News Source"),
                          aiGenerated := true,
                          isVerified := isV,
                          generatedArticle :=
                            jsOrJ (propOf article "Generated article") (Json.str ""),
                          inputPersonName := person,
                          sourceURLKey := some (jsOrJ (propOf article "Source URL")
                            (jsOrJ (propOf realItem "url") (Json.str ""))),
                          originalTitleKey :=
                            some (jsOrJ (propOf realItem "title") (Json.str "")) }

/-- Mapping all parsed articles with their indices. -/
def mapArticles (person : String) (newsData : List Json) :
    Nat → List Json → Except Unit (List GenRecord)
  | _, [] => .ok []
  | idx, a :: rest =>
      match mapArticle person idx a (newsItemAt newsData idx) with
      | .error e => .error e
      | .ok r =>
          match mapArticles person newsData (idx + 1) rest with
          | .error e => .error e
          | .ok rs => .ok (r :: rs)

/-- The caller-level fallback record (news.tsx lines 176-188). -/
def fallbackRecord (person : String) : GenRecord :=
  { id := "1",
    title := Json.str (defaultTitle person),
    originalTitle := none,
    summary :=
      Json.str "Unable to process the AI response properly. Please try again.",
    originalSummary := none,
    imageUrl := getRandomNewsImage 0,
    publishedAt := Json.str "Today",
    originalUrl := Json.str "",
    source := Json.str "AI Generated",
    aiGenerated := true,
    isVerified := false,
    generatedArticle :=
      Json.str "Unable to process the AI response properly. Please try again.",
    inputPersonName := person,
    sourceURLKey := none,
    originalTitleKey := none }

/-- The normalization `processAIResponse` of `src/app/(tabs)/news.tsx`:
parse the raw response, map each article to a display record, and on any
thrown error return the single fallback record. -/
def processAIResponse (aiResponse person : String) (newsData : List Json) :
    List GenRecord :=
  match mapArticles person newsData 0 (extractAndParseJSON aiResponse) with
  | .ok l => l
  | .error _ => [fallbackRecord person]

/-- The retry ceiling `MAX_RETRIES` of `src/app/(tabs)/index.tsx`. -/
def maxRetries : Nat := 3

/-- The base delay `RETRY_DELAY` (milliseconds). -/
def retryDelayMs : Nat := 2000

/-- What one attempt of the `groqResponse` loop observes: a successful
response (with the extracted message content), an HTTP error response
(status and body text), or a thrown fetch/processing error (whether it is
a `TypeError`, and its message). -/
inductive AttemptOutcome where
  | success (content : String)
  | httpError (status : Nat) (body : String)
  | thrown (isTypeError : Bool) (msg : String)

/-- Substring containment, the model of `String.prototype.includes`. -/
def listIncludes (needle : List Char) : List Char → Bool
  | [] => needle.isEmpty
  | c :: cs => needle.isPrefixOf (c :: cs) || listIncludes needle cs

/-- The model of `message.includes(needle)`. -/
def includesSubstr (hay needle : String) : Bool :=
  listIncludes needle.toList hay.toList

/-- The terminal 503 message
`` `Groq service is temporarily unavailable. ... (Error: 503 - ${errorText})` ``. -/
def msg503 (body : String) : String :=
  "Groq service is temporarily unavailable. Please try again in a few minutes. (Error: 503 - "
    ++ body ++ ")"

/-- The generic HTTP failure message `` `Groq API error: ${status} - ${errorText}` ``. -/
def msgHttp (status : Nat) (body : String) : String :=
  "Groq API error: " ++ toString status ++ " - " ++ body

/-- One iteration of the `groqResponse` retry loop at a given attempt
number (`fuel` counts the remaining iterations, so the loop itself stays
faithful to `for (attempt = 1; attempt <= MAX_RETRIES; attempt++)`).
Returns the result and the list of backoff delays that were awaited.
A 503 response retries with delay `RETRY_DELAY * attempt` while attempts
remain, else throws the terminal 503 message; any other thrown error is
retried by the `catch` only when attempts remain and the error is a
`TypeError` or its message contains `'fetch'`. -/
def groqAttempt (outcomes : Nat → AttemptOutcome) : Nat → Nat →
    Except String String × List Nat
  | _, 0 => (.error "", [])
  | attempt, fuel + 1 =>
      match outcomes attempt with
      | .success content => (.ok content, [])
      | .httpError status body =>
          if status = 503 then
            if attempt < maxRetries then
              let (r, ds) := groqAttempt outcomes (attempt + 1) fuel
              (r, retryDelayMs * attempt :: ds)
            else (.error (msg503 body), [])
          else
            if attempt < maxRetries && includesSubstr (msgHttp status body) "fetch" then
              let (r, ds) := groqAttempt outcomes (attempt + 1) fuel
              (r, retryDelayMs * attempt :: ds)
            else (.error (msgHttp status body), [])
      | .thrown isTE msg =>
          if attempt < maxRetries && (isTE || includesSubstr msg "fetch") then
            let (r, ds) := groqAttempt outcomes (attempt + 1) fuel
            (r, retryDelayMs * attempt :: ds)
          else (.error msg, [])

/-- The retry behaviour of `groqResponse`, starting at attempt 1 with
`MAX_RETRIES` iterations available. -/
def groqRun (outcomes : Nat → AttemptOutcome) : Except String String × List Nat :=
  groqAttempt outcomes 1 maxRetries

/-- Fuel sufficient for `parseValue` on one serialized flat record:
two steps plus one per field. -/
def objNeed : Json → Nat
  | .obj fs => fs.length + 2
  | _ => 1

/-- Fuel sufficient for `parseElems` on a serialized record list. -/
def elemsNeed : List Json → Nat
  | [] => 1
  | r :: rs => max (objNeed r) (elemsNeed rs) + 1

/-- A character that survives the tier-1 cleanup unchanged inside a
re-serialized string literal: printable, not a quote, backslash, backtick
or comma, and the only whitespace allowed is a plain space. -/
def safeChar (c : Char) : Bool :=
  32 ≤ c.toNat && !(127 ≤ c.toNat && c.toNat ≤ 159) &&
  c ≠ '"' && c ≠ '\\' && c ≠ btick && c ≠ ',' && (!isJsWs c || c = ' ')

/-- No two adjacent spaces (which the `\s+` collapse would merge). -/
def noTwoSpaces : List Char → Bool
  | [] => true
  | [_] => true
  | c1 :: c2 :: cs => !(c1 = ' ' && c2 = ' ') && noTwoSpaces (c2 :: cs)

/-- A string whose serialized literal the tier-1 cleanup cannot corrupt. -/
def safeStrL (cs : List Char) : Bool := cs.all safeChar && noTwoSpaces cs

/-- A record field whose key and string value are both safe. -/
def fieldSafe : String × Json → Bool
  | (k, Json.str v) => safeStrL k.toList && safeStrL v.toList
  | _ => false

/-- Pairwise-distinct field keys. -/
def keysUnique : List (String × Json) → Bool
  | [] => true
  | (k, _) :: fs => fs.all (fun kv => kv.1 ≠ k) && keysUnique fs

/-- A flat article record (an object of safe string fields with distinct
keys), the shape on which re-serialization is provably transparent. -/
def safeRecord : Json → Bool
  | Json.obj fs => fs.all fieldSafe && keysUnique fs
  | _ => false

/-- A parser output on which the re-parse round trip is provable. -/
def safeOutput (l : List Json) : Bool := l.all safeRecord

/-- A serialized character the cleanup passes treat as inert: no
backtick, no control character, and any whitespace is a plain space. -/
def serCharOk (c : Char) : Bool :=
  c ≠ btick && !isCtrlStrip c && (!isJsWs c || c = ' ')

/-- No two adjacent whitespace characters (so `\s+` collapse is the
identity when every whitespace character is a space). -/
def noWsRun : List Char → Bool
  | [] => true
  | [_] => true
  | c1 :: c2 :: cs => !(isJsWs c1 && isJsWs c2) && noWsRun (c2 :: cs)

/-- Every comma is immediately followed by a quote or an opening brace
(so the `,\s*}` and `,\s*]` cleanups never fire). -/
def commaOk : List Char → Bool
  | [] => true
  | [_] => true
  | c1 :: c2 :: cs => (c1 ≠ ',' || c2 = '"' || c2 = lbrace) && commaOk (c2 :: cs)

/-! ## Theorems -/

/-- C4: on the raw input `'[{"Generated article":"A",},{"Generated
article":"B",}]'` (trailing commas before the closing braces), tier 1
succeeds — the trailing commas are stripped before the JSON parse — and
the parser returns exactly two records whose generated-article fields are
`"A"` and `"B"` in that order. -/
theorem c4_trailing_commas :
    tier1 "[\x7b\"Generated article\":\"A\",\x7d,\x7b\"Generated article\":\"B\",\x7d]"
      = some [Json.obj [("Generated article", Json.str "A")],
              Json.obj [("Generated article", Json.str "B")]] ∧
    extractAndParseJSON
        "[\x7b\"Generated article\":\"A\",\x7d,\x7b\"Generated article\":\"B\",\x7d]"
      = [Json.obj [("Generated article", Json.str "A")],
         Json.obj [("Generated article", Json.str "B")]] :=
  ⟨rfl, rfl⟩

/-- C7: code-fence stripping is transparent — the parser's result on the
fenced input ` ```json\n[{"Generated article":"X"}]\n``` ` equals its
result on the unwrapped JSON, namely one record with generated-article
field `"X"`. -/
theorem c7_fence_transparent :
    extractAndParseJSON "\x60\x60\x60json\n[\x7b\"Generated article\":\"X\"\x7d]\n\x60\x60\x60"
      = extractAndParseJSON "[\x7b\"Generated article\":\"X\"\x7d]" ∧
    extractAndParseJSON "[\x7b\"Generated article\":\"X\"\x7d]"
      = [Json.obj [("Generated article", Json.str "X")]] :=
  ⟨rfl, rfl⟩

/-- C1 counterexample: on the valid JSON array `"[]"` the parser returns
the empty sequence, so the result does not have length at least 1. -/
theorem c1_counterexample : extractAndParseJSON "[]" = [] := rfl

/-- C1 (amended): the parser is total (it returns a value for every raw
input, modelling that no exception escapes), and its result is non-empty
for every input except those on which tier 1 successfully parses an empty
JSON array (such as `"[]"`), which is returned as the empty sequence. -/
theorem c1_amended (s : String) :
    tier1 s = some [] ∨ 1 ≤ (extractAndParseJSON s).length := by
  cases h : tier1 s with
  | some xs =>
      cases xs with
      | nil => exact Or.inl rfl
      | cons x t =>
          right
          simp [extractAndParseJSON, h]
  | none =>
      right
      simp only [extractAndParseJSON, h]
      cases hs : salvageArticles s with
      | nil => simp [hs]
      | cons m ms => simp [hs]

/-- C9 counterexample: a non-503 HTTP error status (here 500) whose
response body makes the thrown message contain `'fetch'` is retried by
the catch-block, not thrown immediately: a backoff delay is awaited and
the second attempt's result is returned. -/
theorem c9_counterexample :
    groqRun (fun n =>
      if n = 1 then AttemptOutcome.httpError 500 "could not fetch upstream model"
      else AttemptOutcome.success "OK")
      = (Except.ok "OK", [retryDelayMs * 1]) := rfl

/-- C9 (amended): among HTTP error statuses, 503 triggers a retry with
delay `RETRY_DELAY * attempt`, capped at `MAX_RETRIES = 3` attempts after
which the terminal 503 message is thrown; a non-503 HTTP error is thrown
immediately **unless** its constructed message (which embeds the response
body) contains the substring `'fetch'`, in which case the generic
network-error catch retries it as well. -/
theorem c9_amended :
    (∀ f status body, status ≠ 503 →
        includesSubstr (msgHttp status body) "fetch" = false →
        f 1 = AttemptOutcome.httpError status body →
        groqRun f = (Except.error (msgHttp status body), [])) ∧
    (∀ f b1 b2 b3, f 1 = AttemptOutcome.httpError 503 b1 →
        f 2 = AttemptOutcome.httpError 503 b2 →
        f 3 = AttemptOutcome.httpError 503 b3 →
        groqRun f = (Except.error (msg503 b3),
          [retryDelayMs * 1, retryDelayMs * 2])) ∧
    (∀ f b c, f 1 = AttemptOutcome.httpError 503 b →
        f 2 = AttemptOutcome.success c →
        groqRun f = (Except.ok c, [retryDelayMs * 1])) := by
  refine ⟨?_, ?_, ?_⟩
  · intro f status body hst hfetch h1
    simp only [groqRun, maxRetries, groqAttempt, h1]
    rw [if_neg hst]
    simp [hfetch, maxRetries]
  · intro f b1 b2 b3 h1 h2 h3
    simp only [groqRun, maxRetries, groqAttempt, h1, h2, h3]
    norm_num [maxRetries]
  · intro f b c h1 h2
    simp only [groqRun, maxRetries, groqAttempt, h1, h2]
    norm_num [maxRetries]

/-- C9 witness: the amended behaviour at concrete outcome sequences — a
404 with a fetch-free body fails immediately with no delays; three 503s
exhaust the ceiling with delays 2000 and 4000; a 503 followed by a
success returns the success after one delay. -/
theorem c9_amended_witness :
    groqRun (fun _ => AttemptOutcome.httpError 404 "not found")
        = (Except.error (msgHttp 404 "not found"), []) ∧
    groqRun (fun _ => AttemptOutcome.httpError 503 "busy")
        = (Except.error (msg503 "busy"), [retryDelayMs * 1, retryDelayMs * 2]) ∧
    groqRun (fun n =>
        if n = 1 then AttemptOutcome.httpError 503 "busy"
        else AttemptOutcome.success "done")
        = (Except.ok "done", [retryDelayMs * 1]) :=
  ⟨c9_amended.1 _ 404 "not found" (by decide) (by decide) rfl,
   c9_amended.2.1 _ "busy" "busy" "busy" rfl rfl rfl,
   c9_amended.2.2 _ "busy" "done" rfl rfl⟩

/-- A found index really carries the sought character. -/
theorem firstIdxOf_get {cs : List Char} {t : Char} {i : Nat}
    (h : firstIdxOf cs t = some i) : cs[i]? = some t := by
  induction cs generalizing i with
  | nil => simp [firstIdxOf] at h
  | cons c cs ih =>
      by_cases hc : c = t
      · simp only [firstIdxOf, hc, if_true, Option.some.injEq] at h
        subst h
        simp [hc]
      · simp only [firstIdxOf, hc, if_false] at h
        cases hf : firstIdxOf cs t with
        | none => rw [hf] at h; simp at h
        | some j =>
            rw [hf] at h
            simp at h
            subst h
            simpa using ih hf

/-- The first `[` and the first `{` never sit at the same index. -/
theorem firstIdxOf_bracket_brace_ne {ct : List Char} {i j : Nat}
    (hi : firstIdxOf ct lbrace = some i) (hj : firstIdxOf ct '[' = some j) :
    j ≠ i := by
  intro hji
  have h1 := firstIdxOf_get hi
  have h2 := firstIdxOf_get hj
  rw [hji] at h2
  rw [h1] at h2
  have hcc : lbrace = '[' := by injection h2
  exact absurd hcc (by decide)

/-- C3: the tier-1 delimiter choice.  (a) When the cleaned text contains
both delimiters and the first `{` precedes the first `[`, the object
delimiters are chosen: the slice runs from the first `{` to the last `}`.
(b) Array delimiters are chosen exactly when a `[` exists and its
position is at or before the first `{` (or no `{` exists).  (c) A
successfully parsed lone non-array value is wrapped into a one-element
sequence. -/
theorem c3_delimiter_choice :
    (∀ ct i j, firstIdxOf ct lbrace = some i → firstIdxOf ct '[' = some j →
        i < j → tierOneSel ct = (some i, lastIdxOf ct rbrace)) ∧
    (∀ ct, chooseArray ct = true ↔
        ∃ j, firstIdxOf ct '[' = some j ∧
          (firstIdxOf ct lbrace = none ∨
            ∃ i, firstIdxOf ct lbrace = some i ∧ j ≤ i)) ∧
    (∀ s ps e v, tierOneBounds (cleanOf s) = some (ps, e) →
        jsonParseL (cleanupJson (jsSubstringL (cleanOf s) ps (e + 1))) = some v →
        v.isArr = false → extractAndParseJSON s = [v]) := by
  refine ⟨?_, ?_, ?_⟩
  · intro ct i j hi hj hij
    have hch : chooseArray ct = false := by
      simp only [chooseArray, hi, hj, decide_eq_false_iff_not]
      omega
    simp [tierOneSel, hch, hi]
  · intro ct
    cases hj : firstIdxOf ct '[' with
    | none =>
        simp only [chooseArray, hj]
        exact iff_of_false (by simp) (by rintro ⟨j', hj', _⟩; simp at hj')
    | some j =>
        cases hi : firstIdxOf ct lbrace with
        | none =>
            constructor
            · intro _
              exact ⟨j, rfl, Or.inl rfl⟩
            · intro _
              simp [chooseArray, hj, hi]
        | some i =>
            have hne : j ≠ i := firstIdxOf_bracket_brace_ne hi hj
            simp only [chooseArray, hj, hi, decide_eq_true_eq, Option.some.injEq]
            constructor
            · intro h
              exact ⟨j, rfl, Or.inr ⟨i, rfl, Nat.le_of_lt h⟩⟩
            · rintro ⟨j', hj', hcase⟩
              subst hj'
              rcases hcase with h | ⟨i', hi', hle⟩
              · simp at h
              · subst hi'
                omega
  · intro s ps e v hb hp hv
    simp only [extractAndParseJSON, tier1, hb, hp]
    cases v with
    | arr xs => simp [Json.isArr] at hv
    | null => rfl
    | bool b => rfl
    | num lx => rfl
    | str t => rfl
    | obj fs => rfl

/-- C3 witness: the object choice on `a{b[c}`, the array choice on
`[1]`, and the lone-object wrap on `{"a":1}`. -/
theorem c3_delimiter_choice_witness :
    tierOneSel "a\x7bb[c\x7d".toList
        = (some 1, lastIdxOf "a\x7bb[c\x7d".toList rbrace) ∧
    chooseArray "[1]".toList = true ∧
    extractAndParseJSON "\x7b\"a\":1\x7d" = [Json.obj [("a", Json.num "1")]] :=
  ⟨c3_delimiter_choice.1 _ 1 3 rfl rfl (by decide),
   (c3_delimiter_choice.2.1 _).mpr ⟨0, rfl, Or.inl rfl⟩,
   c3_delimiter_choice.2.2 "\x7b\"a\":1\x7d" 0 6
     (Json.obj [("a", Json.num "1")]) rfl rfl rfl⟩

/-- Inversion of a successful `mapArticle`: the four fallible steps all
succeeded and the record is exactly the object literal built from them. -/
theorem mapArticle_ok_parts {person : String} {idx : Nat}
    {article realItem : Json} {r : GenRecord}
    (h : mapArticle person idx article realItem = .ok r) :
    ∃ title1 summary isV finalSummary,
      mkTitle (jsOrJ (propOf article "Original title")
          (jsOrJ (propOf realItem "title") (Json.str "")))
        (jsOrJ (propOf article "Generated article") (Json.str "")) = .ok title1 ∧
      mkSummary (jsOrJ (propOf article "Generated article") (Json.str ""))
        = .ok summary ∧
      verifyOf (jsOrJ (propOf article "Source URL")
          (jsOrJ (propOf realItem "url") (Json.str ""))) = .ok isV ∧
      mkFinalSummary summary
        (jsOrJ (propOf article "Generated article") (Json.str "")) = .ok finalSummary ∧
      r = { id := toString (idx + 1),
            title := jsOrJJ title1 (Json.str (defaultTitle person)),
            originalTitle := some (jsOrJ (propOf realItem "title") (Json.str "")),
            summary := finalSummary,
            originalSummary := some (jsOrJ (propOf realItem "summary") (Json.str "")),
            imageUrl := getRandomNewsImage idx,
            publishedAt := jsOrJ (propOf article "Timestamp")
              (jsOrJ (propOf realItem "published") (Json.str "Today")),
            originalUrl := jsOrJ (propOf article "Source URL")
              (jsOrJ (propOf realItem "url") (Json.str "")),
            source := jsOrJ (propOf realItem "source") (Json.str "News Source"),
            aiGenerated := true,
            isVerified := isV,
            generatedArticle := jsOrJ (propOf article "Generated article") (Json.str ""),
            inputPersonName := person,
            sourceURLKey := some (jsOrJ (propOf article "Source URL")
              (jsOrJ (propOf realItem "url") (Json.str ""))),
            originalTitleKey := some (jsOrJ (propOf realItem "title") (Json.str "")) } := by
  unfold mapArticle at h
  by_cases hn : (article.isNull || realItem.isNull) = true
  · rw [if_pos hn] at h
    simp at h
  · rw [if_neg hn] at h
    split at h
    · simp at h
    · next title1 h1 =>
        split at h
        · simp at h
        · next summary h2 =>
            split at h
            · simp at h
            · next isV h3 =>
                split at h
                · simp at h
                · next finalSummary h4 =>
                    refine ⟨title1, summary, isV, finalSummary, h1, h2, h3, h4, ?_⟩
                    injection h with h5
                    exact h5.symm

/-- Inversion of the verification flag: the resolved value was a truthy
string (and the flag is its http test), or it was falsy (and the flag is
false). -/
theorem verifyOf_ok {u : Json} {b : Bool} (h : verifyOf u = .ok b) :
    (∃ s, u = Json.str s ∧ truthy u = true ∧ b = jsStartsWith s "http") ∨
    (truthy u = false ∧ b = false) := by
  unfold verifyOf at h
  split at h
  · next ht =>
      cases u with
      | str s =>
          injection h with hb
          exact Or.inl ⟨s, rfl, ht, hb.symm⟩
      | null => simp at h
      | bool b2 => simp at h
      | num lx => simp at h
      | arr xs => simp at h
      | obj fs => simp at h
  · next ht =>
      injection h with hb
      exact Or.inr ⟨by simpa using ht, hb.symm⟩

/-- A `x || y` chain either returns its final default or a truthy value. -/
theorem jsOrJ_default_or_truthy (a : Option Json) (d : Json) :
    jsOrJ a d = d ∨ truthy (jsOrJ a d) = true := by
  cases a with
  | none => exact Or.inl rfl
  | some v =>
      by_cases hv : truthy v = true
      · right
        have hred : jsOrJ (some v) d = v := by simp [jsOrJ, hv]
        rw [hred]
        exact hv
      · left
        simp [jsOrJ, hv]

/-- C2: for every parsed article and positionally matched real-news item
whose normalization succeeds, the record's resolved source URL is a
string `u` (stored in both `originalUrl` and the `"Source URL"` field)
and `isVerified` is true iff `u` is non-empty and starts with `"http"` —
a purely syntactic test, no network check. -/
theorem c2_isVerified_iff (person : String) (idx : Nat)
    (article realItem : Json) (r : GenRecord)
    (h : mapArticle person idx article realItem = .ok r) :
    ∃ u : String, r.originalUrl = Json.str u ∧
      r.sourceURLKey = some (Json.str u) ∧
      (r.isVerified = true ↔ (u ≠ "" ∧ jsStartsWith u "http" = true)) := by
  obtain ⟨title1, summary, isV, finalSummary, h1, h2, h3, h4, hr⟩ :=
    mapArticle_ok_parts h
  subst hr
  rcases verifyOf_ok h3 with ⟨s, hs, hts, hb⟩ | ⟨hts, hb⟩
  · refine ⟨s, hs, by rw [hs], ?_⟩
    have hsne : s ≠ "" := by
      rw [hs] at hts
      simpa [truthy] using hts
    subst hb
    constructor
    · intro hv
      exact ⟨hsne, hv⟩
    · intro hv
      exact hv.2
  · have hdef : jsOrJ (propOf article "Source URL")
        (jsOrJ (propOf realItem "url") (Json.str "")) = Json.str "" := by
      rcases jsOrJ_default_or_truthy (propOf article "Source URL")
          (jsOrJ (propOf realItem "url") (Json.str "")) with h5 | h5
      · rcases jsOrJ_default_or_truthy (propOf realItem "url") (Json.str "") with h6 | h6
        · rw [h5, h6]
        · rw [h5] at hts
          exact absurd h6 (by rw [hts]; simp)
      · exact absurd h5 (by rw [hts]; simp)
    refine ⟨"", hdef, by rw [hdef], ?_⟩
    subst hb
    simp

/-- C2 witness: a concrete article with an http source URL normalizes to
a verified record. -/
theorem c2_isVerified_iff_witness :
    ∃ u : String,
      ((mapArticle "P" 0
          (Json.obj [("Generated article", Json.str "g"),
            ("Source URL", Json.str "http://x.com")])
          (Json.obj [])).toOption.getD (fallbackRecord "P")).originalUrl
        = Json.str u ∧
      ((mapArticle "P" 0
          (Json.obj [("Generated article", Json.str "g"),
            ("Source URL", Json.str "http://x.com")])
          (Json.obj [])).toOption.getD (fallbackRecord "P")).sourceURLKey
        = some (Json.str u) ∧
      (((mapArticle "P" 0
          (Json.obj [("Generated article", Json.str "g"),
            ("Source URL", Json.str "http://x.com")])
          (Json.obj [])).toOption.getD (fallbackRecord "P")).isVerified = true ↔
        (u ≠ "" ∧ jsStartsWith u "http" = true)) :=
  c2_isVerified_iff "P" 0
    (Json.obj [("Generated article", Json.str "g"),
      ("Source URL", Json.str "http://x.com")])
    (Json.obj []) _ rfl

set_option maxRecDepth 8000 in
/-- C5 counterexample: with a real-news list of length 1 and three parsed
articles, the record at index 1 — which has no real-news counterpart —
keeps the model-provided source URL `"http://a.com"`, which is not empty. -/
theorem c5_counterexample :
    ([Json.obj [("title", Json.str "T"), ("summary", Json.str "S"),
        ("url", Json.str "http://n.com")]] : List Json).length = 1 ∧
    (processAIResponse
        "[\x7b\"Generated article\":\"A\"\x7d,\x7b\"Generated article\":\"B\",\"Source URL\":\"http://a.com\"\x7d,\x7b\"Generated article\":\"C\"\x7d]"
        "P"
        [Json.obj [("title", Json.str "T"), ("summary", Json.str "S"),
          ("url", Json.str "http://n.com")]]).map GenRecord.originalUrl
      = [Json.str "http://n.com", Json.str "http://a.com", Json.str ""] ∧
    Json.str "http://a.com" ≠ Json.str "" :=
  ⟨rfl, rfl, by simp⟩

/-- C5 (amended): when the parsed list is longer than the real-news list,
normalization of an article at an out-of-range index does not fail
because of the missing counterpart: its original title and original
summary are empty, and its source URL is the article's own model-provided
`"Source URL"` if truthy, else empty. -/
theorem c5_amended (person : String) (idx : Nat) (article : Json)
    (newsData : List Json) (r : GenRecord)
    (hlen : newsData.length ≤ idx)
    (h : mapArticle person idx article (newsItemAt newsData idx) = .ok r) :
    r.originalTitle = some (Json.str "") ∧
    r.originalSummary = some (Json.str "") ∧
    r.originalUrl = jsOrJ (propOf article "Source URL") (Json.str "") := by
  have hitem : newsItemAt newsData idx = Json.obj [] := by
    unfold newsItemAt
    rw [List.get?_eq_none.mpr hlen]
  rw [hitem] at h
  obtain ⟨t1, sm, iv, fs, h1, h2, h3, h4, hr⟩ := mapArticle_ok_parts h
  subst hr
  exact ⟨rfl, rfl, rfl⟩

/-- C5 witness: a concrete out-of-range article with its own source URL. -/
theorem c5_amended_witness :
    ((mapArticle "P" 1
        (Json.obj [("Generated article", Json.str "B"),
          ("Source URL", Json.str "http://a.com")])
        (newsItemAt [] 1)).toOption.getD (fallbackRecord "P")).originalTitle
      = some (Json.str "") ∧
    ((mapArticle "P" 1
        (Json.obj [("Generated article", Json.str "B"),
          ("Source URL", Json.str "http://a.com")])
        (newsItemAt [] 1)).toOption.getD (fallbackRecord "P")).originalSummary
      = some (Json.str "") ∧
    ((mapArticle "P" 1
        (Json.obj [("Generated article", Json.str "B"),
          ("Source URL", Json.str "http://a.com")])
        (newsItemAt [] 1)).toOption.getD (fallbackRecord "P")).originalUrl
      = jsOrJ (propOf
          (Json.obj [("Generated article", Json.str "B"),
            ("Source URL", Json.str "http://a.com")]) "Source URL")
          (Json.str "") :=
  c5_amended "P" 1
    (Json.obj [("Generated article", Json.str "B"),
      ("Source URL", Json.str "http://a.com")]) [] _ (by simp) rfl

/-- C10 counterexample: a parsed article whose `"Original title"` is the
number `7` makes the record's title the number `7` — a truthy value, but
not a string. -/
theorem c10_counterexample :
    (processAIResponse "[\x7b\"Original title\": 7, \"Generated article\": \"x\"\x7d]"
        "P" []).map GenRecord.title = [Json.num "7"] ∧
    Json.isStr (Json.num "7") = false :=
  ⟨rfl, rfl⟩

/-- Every record of a successful map comes from `mapArticle` at some
index. -/
theorem mapArticles_mem {person : String} {newsData : List Json}
    {idx : Nat} {arts : List Json} {l : List GenRecord} {r : GenRecord}
    (h : mapArticles person newsData idx arts = .ok l) (hm : r ∈ l) :
    ∃ i a, mapArticle person i a (newsItemAt newsData i) = .ok r := by
  induction arts generalizing idx l with
  | nil =>
      unfold mapArticles at h
      injection h with h'
      subst h'
      simp at hm
  | cons a rest ih =>
      unfold mapArticles at h
      split at h
      · simp at h
      · next r1 heq1 =>
          split at h
          · simp at h
          · next rs heq2 =>
              injection h with h'
              subst h'
              rcases List.mem_cons.mp hm with hr1 | hrs
              · subst hr1
                exact ⟨idx, a, heq1⟩
              · exact ih heq2 hrs

/-- The default title is never the empty string. -/
theorem defaultTitle_ne_empty (person : String) : defaultTitle person ≠ "" := by
  intro h
  have hlen := congrArg String.length h
  rw [defaultTitle, String.length_append] at hlen
  have h2 : ("\x27s Perspective on Current Events" : String).length = 32 := rfl
  rw [h2] at hlen
  simp at hlen

/-- A `x || y` on two values is truthy whenever the fallback is. -/
theorem jsOrJJ_truthy_right {a b : Json} (hb : truthy b = true) :
    truthy (jsOrJJ a b) = true := by
  unfold jsOrJJ
  by_cases ha : truthy a = true
  · rw [if_pos ha]; exact ha
  · rw [if_neg ha]; exact hb

/-- C10 (amended): every record produced by `processAIResponse`,
including the caller-level fallback record, has a truthy title (in
particular never the empty string) — though not necessarily a *string*,
as the counterexample shows; and when the model's `"Original title"`, the
real-news title, and the generated content are all empty/absent, the
title is exactly `` `${person}'s Perspective on Current Events` ``. -/
theorem c10_amended :
    (∀ aiR person news r, r ∈ processAIResponse aiR person news →
        truthy r.title = true) ∧
    (∀ person idx article realItem r,
        truthy (jsOrJ (propOf article "Original title")
          (jsOrJ (propOf realItem "title") (Json.str ""))) = false →
        truthy (jsOrJ (propOf article "Generated article") (Json.str "")) = false →
        mapArticle person idx article realItem = .ok r →
        r.title = Json.str (defaultTitle person)) := by
  constructor
  · intro aiR person news r hm
    unfold processAIResponse at hm
    split at hm
    · next l hmap =>
        obtain ⟨i, a, hok⟩ := mapArticles_mem hmap hm
        obtain ⟨t1, sm, iv, fs, h1, h2, h3, h4, hr⟩ := mapArticle_ok_parts hok
        subst hr
        exact jsOrJJ_truthy_right (by
          simpa [truthy] using defaultTitle_ne_empty person)
    · next e hmap =>
        rcases List.mem_singleton.mp hm with rfl
        simpa [fallbackRecord, truthy] using defaultTitle_ne_empty person
  · intro person idx article realItem r ht0 hgc hok
    obtain ⟨t1, sm, iv, fs, h1, h2, h3, h4, hr⟩ := mapArticle_ok_parts hok
    have ht1 : t1 = jsOrJ (propOf article "Original title")
        (jsOrJ (propOf realItem "title") (Json.str "")) := by
      unfold mkTitle at h1
      rw [ht0, hgc] at h1
      simp at h1
      exact h1.symm
    subst hr
    show jsOrJJ t1 (Json.str (defaultTitle person)) = Json.str (defaultTitle person)
    rw [ht1]
    unfold jsOrJJ
    rw [if_neg]
    rw [ht0]
    simp

/-- C10 witness: the fallback record for a response the mapper rejects
has a truthy title, and an empty article against an empty real-news item
gets exactly the default title. -/
theorem c10_amended_witness :
    truthy (fallbackRecord "P").title = true ∧
    ((mapArticle "P" 0 (Json.obj []) (Json.obj [])).toOption.getD
        (fallbackRecord "P")).title = Json.str (defaultTitle "P") :=
  ⟨c10_amended.1 "[null]" "P" [] (fallbackRecord "P")
      (by rw [show processAIResponse "[null]" "P" [] = [fallbackRecord "P"] from rfl]
          exact List.mem_singleton.mpr rfl),
   c10_amended.2 "P" 0 (Json.obj []) (Json.obj []) _ rfl rfl rfl⟩

/-- C6 counterexample: an input with no brackets at all can still match
the tier-2 salvage pattern, in which case the generated-article field is
the captured group, not the entire input. -/
theorem c6_counterexample :
    extractAndParseJSON "\"Generated article\": \"hello\""
      = [Json.obj [("Generated article", Json.str "hello")]] ∧
    ('[' ∉ "\"Generated article\": \"hello\"".toList ∧
      lbrace ∉ "\"Generated article\": \"hello\"".toList) ∧
    Json.str "hello" ≠ Json.str "\"Generated article\": \"hello\"" :=
  ⟨rfl, by decide, by simp⟩

/-- Dropping one optional newline only removes characters. -/
theorem dropNl_subset {x : Char} {l : List Char} (h : x ∈ dropNl l) : x ∈ l := by
  unfold dropNl at h
  split at h
  · exact List.mem_cons_of_mem _ h
  · exact h

/-- The fence-stripping pass only removes characters. -/
theorem stripFencePassF_subset {p : Char} {ps : List Char} {x : Char} :
    ∀ (fuel : Nat) (cs : List Char), x ∈ stripFencePassF p ps fuel cs → x ∈ cs := by
  intro fuel
  induction fuel with
  | zero => intro cs h; simp [stripFencePassF] at h
  | succ f ih =>
      intro cs h
      cases cs with
      | nil => simpa [stripFencePassF] using h
      | cons c cs' =>
          rw [stripFencePassF] at h
          by_cases hp : (p :: ps).isPrefixOf (c :: cs') = true
          · rw [if_pos hp] at h
            have h2 := ih _ h
            have h3 : x ∈ cs'.drop ps.length := dropNl_subset h2
            exact List.mem_cons_of_mem c (List.drop_subset _ _ h3)
          · rw [if_neg hp] at h
            rcases List.mem_cons.mp h with rfl | hm
            · exact List.mem_cons_self _ _
            · exact List.mem_cons_of_mem c (ih _ hm)

/-- Trimming only removes characters. -/
theorem jsTrimL_subset {x : Char} {cs : List Char} (h : x ∈ jsTrimL cs) :
    x ∈ cs := by
  unfold jsTrimL at h
  rw [List.mem_reverse] at h
  have h1 := (List.dropWhile_sublist _).subset h
  rw [List.mem_reverse] at h1
  exact (List.dropWhile_sublist _).subset h1

/-- The whole tier-1 cleanup only removes characters. -/
theorem cleanOf_subset {x : Char} {s : String} (h : x ∈ cleanOf s) :
    x ∈ s.toList := by
  unfold cleanOf stripControl at h
  have h1 := List.mem_of_mem_filter h
  unfold stripFences stripFencePass at h1
  have h2 := stripFencePassF_subset _ _ h1
  have h3 := stripFencePassF_subset _ _ h2
  exact jsTrimL_subset h3

/-- Characters that are absent have no index. -/
theorem firstIdxOf_eq_none {cs : List Char} {t : Char} (h : t ∉ cs) :
    firstIdxOf cs t = none := by
  induction cs with
  | nil => rfl
  | cons c cs ih =>
      rw [firstIdxOf]
      rw [if_neg (fun hc : c = t => h (hc ▸ List.mem_cons_self c cs))]
      rw [ih (fun hm => h (List.mem_cons_of_mem c hm))]
      rfl

/-- Tier 1 throws when the input has neither `[` nor `{`. -/
theorem tier1_none_of_no_delims {s : String}
    (hb : '[' ∉ s.toList) (hc : lbrace ∉ s.toList) : tier1 s = none := by
  have h1 : firstIdxOf (cleanOf s) '[' = none :=
    firstIdxOf_eq_none (fun hm => hb (cleanOf_subset hm))
  have h2 : firstIdxOf (cleanOf s) lbrace = none :=
    firstIdxOf_eq_none (fun hm => hc (cleanOf_subset hm))
  have hch : chooseArray (cleanOf s) = false := by
    simp [chooseArray, h1]
  have hbnd : tierOneBounds (cleanOf s) = none := by
    simp [tierOneBounds, tierOneSel, hch, h2]
  simp [tier1, hbnd]

/-- C6 (amended): for raw inputs with neither `[` nor `{` **on which the
tier-2 regex finds no match**, the parser returns one record whose
generated-article field is the entire raw input verbatim. -/
theorem c6_amended (s : String) (hb : '[' ∉ s.toList) (hc : lbrace ∉ s.toList)
    (hs : salvageScan s.toList = []) :
    extractAndParseJSON s = [Json.obj [("Generated article", Json.str s)]] := by
  have hs2 : salvageScan s.data = [] := hs
  simp only [extractAndParseJSON, tier1_none_of_no_delims hb hc]
  simp [salvageArticles, hs2]

/-- C6 witness: plain prose with no brackets and no salvage match. -/
theorem c6_amended_witness :
    extractAndParseJSON "just some plain text"
      = [Json.obj [("Generated article", Json.str "just some plain text")]] :=
  c6_amended "just some plain text" (by decide) (by decide) rfl

/-- C8 counterexample: re-serializing and re-parsing is not the identity —
the whole-text record for `"hello  world"` comes back with its double
space collapsed by the tier-1 whitespace cleanup. -/
theorem c8_counterexample :
    extractAndParseJSON "hello  world"
      = [Json.obj [("Generated article", Json.str "hello  world")]] ∧
    extractAndParseJSON (jsonStringify (Json.arr (extractAndParseJSON "hello  world")))
      = [Json.obj [("Generated article", Json.str "hello world")]] ∧
    Json.str "hello world" ≠ Json.str "hello  world" :=
  ⟨rfl, rfl, by simp⟩

/-- Safe characters need no `JSON.stringify` escaping. -/
theorem escChar_safe {c : Char} (h : safeChar c = true) : escChar c = [c] := by
  simp only [safeChar, Bool.and_eq_true, decide_eq_true_eq] at h
  obtain ⟨⟨⟨⟨⟨⟨h32, _⟩, hq⟩, hbs⟩, _⟩, _⟩, _⟩ := h
  unfold escChar
  rw [if_neg hq, if_neg hbs]
  rw [if_neg (fun hc => by subst hc; exact absurd h32 (by decide))]
  rw [if_neg (fun hc => by subst hc; exact absurd h32 (by decide))]
  rw [if_neg (fun hc => by subst hc; exact absurd h32 (by decide))]
  rw [if_neg (fun hc => by omega)]
  rw [if_neg (fun hc => by omega)]
  rw [if_neg (by omega)]

/-- A safe string body is rendered verbatim. -/
theorem escapeChars_safe {v : List Char} (h : ∀ c ∈ v, safeChar c = true) :
    escapeChars v = v := by
  induction v with
  | nil => rfl
  | cons c v' ih =>
      rw [escapeChars, escChar_safe (h c (List.mem_cons_self _ _)),
        ih (fun c2 hm => h c2 (List.mem_cons_of_mem _ hm))]
      rfl

/-- A safe string literal is just the body in quotes. -/
theorem serStrL_safe {s : String} (h : ∀ c ∈ s.toList, safeChar c = true) :
    serStrL s = '"' :: (s.toList ++ ['"']) := by
  unfold serStrL
  rw [escapeChars_safe h]

/-- Parsing a quoted safe body returns it verbatim. -/
theorem parseStringChars_safe {v : List Char} (rest : List Char)
    (h : ∀ c ∈ v, safeChar c = true) :
    parseStringChars (v ++ '"' :: rest) = some (v, rest) := by
  induction v with
  | nil =>
      rw [List.nil_append, parseStringChars.eq_def]
      simp
  | cons c v' ih =>
      have hc := h c (List.mem_cons_self _ _)
      simp only [safeChar, Bool.and_eq_true, decide_eq_true_eq] at hc
      obtain ⟨⟨⟨⟨⟨⟨h32, _⟩, hq⟩, hbs⟩, _⟩, _⟩, _⟩ := hc
      rw [List.cons_append, parseStringChars.eq_def]
      simp only []
      rw [if_neg hq, if_neg hbs, if_neg (by omega)]
      rw [ih (fun c2 hm => h c2 (List.mem_cons_of_mem _ hm))]

/-- Rebuilding a string from its characters is the identity. -/
theorem mk_toList (s : String) : String.mk s.toList = s := rfl

/-- Parsing a serialized safe string literal, at any positive fuel. -/
theorem parseValue_str (s : String) (fuel : Nat) (rest : List Char)
    (h : ∀ c ∈ s.toList, safeChar c = true) :
    parseValue (fuel + 1) ('"' :: (s.toList ++ '"' :: rest))
      = some (Json.str s, rest) := by
  have hws : skipWs ('"' :: (s.toList ++ '"' :: rest))
      = '"' :: (s.toList ++ '"' :: rest) := by
    rw [skipWs]
    simp [isJsonWs]
  rw [parseValue, hws]
  show (match parseStringChars (s.toList ++ '"' :: rest) with
      | some (s2, r) => some (Json.str (String.mk s2), r)
      | none => none) = some (Json.str s, rest)
  rw [parseStringChars_safe rest h]
  rfl

/-- Skipping whitespace before a non-whitespace head is a no-op. -/
theorem skipWs_nonws {c : Char} {cs : List Char} (h : isJsonWs c = false) :
    skipWs (c :: cs) = c :: cs := by
  rw [skipWs]
  simp [h]

/-- Inserting a fresh key appends it. -/
theorem objInsert_notmem {acc : List (String × Json)} {k : String} {v : Json}
    (h : ∀ a ∈ acc, a.1 ≠ k) : objInsert acc k v = acc ++ [(k, v)] := by
  induction acc with
  | nil => rfl
  | cons a acc' ih =>
      obtain ⟨k', v'⟩ := a
      have hne : k' ≠ k := h (k', v') (List.mem_cons_self _ _)
      simp only [objInsert, hne, if_false, List.cons_append]
      rw [ih (fun a hm => h a (List.mem_cons_of_mem _ hm))]

/-- Folding inserts of distinct fresh keys just appends them. -/
theorem foldl_objInsert_append (fs : List (String × Json)) :
    ∀ acc, keysUnique fs = true → (∀ f ∈ fs, ∀ a ∈ acc, a.1 ≠ f.1) →
      fs.foldl (fun acc kv => objInsert acc kv.1 kv.2) acc = acc ++ fs := by
  induction fs with
  | nil => intro acc _ _; simp
  | cons f fs' ih =>
      intro acc hu hd
      obtain ⟨k, v⟩ := f
      simp only [keysUnique, Bool.and_eq_true, List.all_eq_true,
        decide_eq_true_eq] at hu
      obtain ⟨hall, hu'⟩ := hu
      rw [List.foldl_cons]
      rw [show objInsert acc (k, v).1 (k, v).2 = acc ++ [(k, v)] from
        objInsert_notmem (fun a hm => hd (k, v) (List.mem_cons_self _ _) a hm)]
      rw [ih (acc ++ [(k, v)]) hu' ?side]
      · simp
      case side =>
        intro f' hf' a ha
        rcases List.mem_append.mp ha with hacc | hkv
        · exact hd f' (List.mem_cons_of_mem _ hf') a hacc
        · rcases List.mem_singleton.mp hkv with rfl
          exact fun hcontra => (hall f' hf') hcontra.symm

/-- Parsed members with unique keys rebuild to themselves. -/
theorem buildObj_eq_self {fs : List (String × Json)} (h : keysUnique fs = true) :
    buildObj fs = fs := by
  unfold buildObj
  rw [foldl_objInsert_append fs [] h (by simp)]
  simp

/-- A safe field list is parsed back verbatim by `parseMembers`. -/
theorem parseMembers_ser (fs : List (String × Json)) :
    ∀ (fuel : Nat) (rest : List Char), fs ≠ [] → fs.all fieldSafe = true →
      parseMembers (fuel + fs.length + 1) (serFields fs ++ rbrace :: rest)
        = some (fs, rest) := by
  induction fs with
  | nil => intro _ _ hne _; exact absurd rfl hne
  | cons f fs' ih =>
      intro fuel rest _ hall
      obtain ⟨k, v⟩ := f
      simp only [List.all_cons, Bool.and_eq_true] at hall
      obtain ⟨hf, hall'⟩ := hall
      cases v with
      | null => simp [fieldSafe] at hf
      | bool b => simp [fieldSafe] at hf
      | num lx => simp [fieldSafe] at hf
      | arr xs => simp [fieldSafe] at hf
      | obj fs2 => simp [fieldSafe] at hf
      | str vs =>
          simp only [fieldSafe, safeStrL, Bool.and_eq_true, List.all_eq_true,
            decide_eq_true_eq] at hf
          obtain ⟨⟨hks, _⟩, hvs, _⟩ := hf
          rw [serFields]
          rw [show serJson (Json.str vs) = serStrL vs from rfl]
          rw [serStrL_safe hks, serStrL_safe hvs]
          simp only [List.cons_append, List.append_assoc, List.singleton_append,
            List.nil_append, List.length_cons]
          rw [show fuel + (fs'.length + 1) + 1 = (fuel + fs'.length + 1) + 1 from
            by omega]
          rw [parseMembers]
          rw [skipWs_nonws (by decide)]
          simp only []
          rw [parseStringChars_safe _ hks]
          simp only []
          rw [skipWs_nonws (by decide)]
          simp only []
          rw [parseValue_str vs (fuel + fs'.length) _ hvs]
          simp only []
          cases fs' with
          | nil =>
              rw [show serFieldsTail ([] : List (String × Json)) = [] from rfl]
              rw [List.nil_append]
              rw [skipWs_nonws (by decide)]
              simp only []
              rw [if_neg (show ¬(rbrace = ',') from by decide)]
              simp [mk_toList]
          | cons g gs =>
              obtain ⟨gk, gv⟩ := g
              rw [show serFieldsTail ((gk, gv) :: gs)
                = ',' :: serFields ((gk, gv) :: gs) from rfl]
              rw [List.cons_append]
              rw [skipWs_nonws (by decide)]
              simp only [if_true]
              rw [ih fuel rest (by simp) hall']
              simp [mk_toList]

/-- A serialized safe flat object is parsed back verbatim, with its
(unique-keyed) fields preserved. -/
theorem parseValue_obj_ser (fs : List (String × Json)) (fuel : Nat)
    (rest : List Char) (hsafe : fs.all fieldSafe = true)
    (huniq : keysUnique fs = true) :
    parseValue (fuel + fs.length + 2) (serJson (Json.obj fs) ++ rest)
      = some (Json.obj fs, rest) := by
  rw [show serJson (Json.obj fs) = lbrace :: (serFields fs ++ [rbrace]) from rfl]
  rw [List.cons_append, List.append_assoc, List.singleton_append]
  rw [show fuel + fs.length + 2 = (fuel + fs.length + 1) + 1 from by omega]
  rw [parseValue]
  rw [skipWs_nonws (by decide)]
  simp only []
  rw [if_neg (by decide)]
  simp only [if_true]
  cases fs with
  | nil =>
      rw [show serFields ([] : List (String × Json)) = [] from rfl,
        List.nil_append]
      rw [skipWs_nonws (by decide)]
      simp only []
      simp only [if_true]
  | cons f fs' =>
      obtain ⟨k, v⟩ := f
      have htl : serFields ((k, v) :: fs')
          = '"' :: ((escapeChars k.toList ++ ['"'] ++ (':' :: serJson v))
            ++ serFieldsTail fs') := by
        rw [serFields, serStrL]
        simp [List.cons_append, List.append_assoc]
      rw [htl, List.cons_append]
      rw [skipWs_nonws (by decide)]
      simp only []
      rw [if_neg (by decide)]
      rw [← List.cons_append, ← htl]
      rw [parseMembers_ser _ fuel rest (by simp) hsafe]
      simp only []
      rw [buildObj_eq_self huniq]

/-- A serialized safe record list is parsed back verbatim by
`parseElems`, given the fuel budget `elemsNeed`. -/
theorem parseElems_ser (rs : List Json) :
    ∀ (fuel : Nat) (rest : List Char), rs ≠ [] → safeOutput rs = true →
      parseElems (fuel + elemsNeed rs) (serElems rs ++ ']' :: rest)
        = some (rs, rest) := by
  induction rs with
  | nil => intro _ _ h _; exact absurd rfl h
  | cons r rs' ih =>
      intro fuel rest _ hsafe
      simp only [safeOutput, List.all_cons, Bool.and_eq_true] at hsafe
      obtain ⟨hr, hrs'⟩ := hsafe
      cases r with
      | null => simp [safeRecord] at hr
      | bool b => simp [safeRecord] at hr
      | num lx => simp [safeRecord] at hr
      | str s => simp [safeRecord] at hr
      | arr xs => simp [safeRecord] at hr
      | obj fs =>
          simp only [safeRecord, Bool.and_eq_true] at hr
          obtain ⟨hfs, huniq⟩ := hr
          rw [show elemsNeed (Json.obj fs :: rs')
            = max (objNeed (Json.obj fs)) (elemsNeed rs') + 1 from rfl]
          rw [show fuel + (max (objNeed (Json.obj fs)) (elemsNeed rs') + 1)
              = (fuel + max (objNeed (Json.obj fs)) (elemsNeed rs')) + 1 from
            by omega]
          rw [parseElems]
          rw [show serElems (Json.obj fs :: rs')
            = serJson (Json.obj fs) ++ serElemsTail rs' from rfl]
          rw [List.append_assoc]
          obtain ⟨k2, hk2⟩ : ∃ k2,
              fuel + max (objNeed (Json.obj fs)) (elemsNeed rs')
                = k2 + fs.length + 2 := by
            refine ⟨fuel + max (objNeed (Json.obj fs)) (elemsNeed rs')
              - (fs.length + 2), ?_⟩
            have hle := Nat.le_max_left (objNeed (Json.obj fs)) (elemsNeed rs')
            simp only [objNeed] at hle ⊢
            omega
          rw [hk2]
          rw [parseValue_obj_ser fs k2 _ hfs huniq]
          simp only []
          cases rs' with
          | nil =>
              rw [show serElemsTail ([] : List Json) = [] from rfl,
                List.nil_append]
              rw [skipWs_nonws (by decide)]
              simp only []
          | cons r2 rs'' =>
              rw [show serElemsTail (r2 :: rs'')
                = ',' :: serElems (r2 :: rs'') from rfl]
              rw [List.cons_append]
              rw [skipWs_nonws (by decide)]
              simp only []
              obtain ⟨k3, hk3⟩ : ∃ k3,
                  k2 + fs.length + 2 = k3 + elemsNeed (r2 :: rs'') := by
                refine ⟨k2 + fs.length + 2 - elemsNeed (r2 :: rs''), ?_⟩
                have hle := Nat.le_max_right (objNeed (Json.obj fs))
                  (elemsNeed (r2 :: rs''))
                omega
              rw [hk3]
              rw [ih k3 rest (by simp) hrs']

/-- A serialized safe record-list array is parsed back verbatim. -/
theorem parseValue_arr_ser (rs : List Json) (fuel : Nat) (rest : List Char)
    (hsafe : safeOutput rs = true) :
    parseValue (fuel + elemsNeed rs + 1) (serJson (Json.arr rs) ++ rest)
      = some (Json.arr rs, rest) := by
  rw [show serJson (Json.arr rs) = '[' :: (serElems rs ++ [']']) from rfl]
  rw [List.cons_append, List.append_assoc, List.singleton_append]
  rw [show fuel + elemsNeed rs + 1 = (fuel + elemsNeed rs) + 1 from rfl]
  rw [parseValue]
  rw [skipWs_nonws (by decide)]
  simp only []
  rw [if_neg (by decide), if_neg (by decide)]
  simp only [if_true]
  cases rs with
  | nil =>
      rw [show serElems ([] : List Json) = [] from rfl, List.nil_append]
      rw [skipWs_nonws (by decide)]
      simp only []
      simp only [if_true]
  | cons r rs' =>
      simp only [safeOutput, List.all_cons, Bool.and_eq_true] at hsafe
      obtain ⟨hr, hrs'⟩ := hsafe
      cases r with
      | null => simp [safeRecord] at hr
      | bool b => simp [safeRecord] at hr
      | num lx => simp [safeRecord] at hr
      | str s => simp [safeRecord] at hr
      | arr xs => simp [safeRecord] at hr
      | obj fs =>
          have htl : serElems (Json.obj fs :: rs')
              = lbrace :: ((serFields fs ++ [rbrace]) ++ serElemsTail rs') := by
            rw [show serElems (Json.obj fs :: rs')
              = serJson (Json.obj fs) ++ serElemsTail rs' from rfl]
            rw [show serJson (Json.obj fs)
              = lbrace :: (serFields fs ++ [rbrace]) from rfl]
            rw [List.cons_append]
          rw [htl, List.cons_append]
          rw [skipWs_nonws (by decide)]
          simp only []
          rw [if_neg (by decide)]
          rw [← List.cons_append, ← htl]
          have hsafe2 : safeOutput (Json.obj fs :: rs') = true := by
            simp [safeOutput, List.all_cons, hr, hrs']
          rw [parseElems_ser (Json.obj fs :: rs') fuel rest (by simp) hsafe2]

/-- A serialized field list is at least as long as the field count. -/
theorem serFields_len_ge (fs : List (String × Json)) :
    fs.length ≤ (serFields fs).length ∧ fs.length ≤ (serFieldsTail fs).length := by
  induction fs with
  | nil => simp [serFields, serFieldsTail]
  | cons f fs' ih =>
      obtain ⟨k, v⟩ := f
      obtain ⟨ih1, ih2⟩ := ih
      constructor
      · rw [serFields, serStrL]
        simp only [List.length_append, List.length_cons, List.length_nil]
        omega
      · rw [serFieldsTail, serStrL]
        simp only [List.length_append, List.length_cons, List.length_nil]
        omega

/-- The length of a serialized flat object. -/
theorem serJson_obj_len (fs : List (String × Json)) :
    (serJson (Json.obj fs)).length = (serFields fs).length + 2 := by
  rw [show serJson (Json.obj fs) = lbrace :: (serFields fs ++ [rbrace]) from rfl]
  simp

/-- The fuel bound `elemsNeed` is within the serialized length. -/
theorem elemsNeed_le : ∀ rs : List Json, safeOutput rs = true →
    elemsNeed rs ≤ (serElems rs).length + 1 := by
  intro rs
  induction rs with
  | nil => intro _; simp [elemsNeed, serElems]
  | cons r rs' ih =>
      intro h
      simp only [safeOutput, List.all_cons, Bool.and_eq_true] at h
      obtain ⟨hr, hrs'⟩ := h
      have ihe : elemsNeed rs' ≤ (serElems rs').length + 1 := ih hrs'
      cases r with
      | null => simp [safeRecord] at hr
      | bool b => simp [safeRecord] at hr
      | num lx => simp [safeRecord] at hr
      | str s => simp [safeRecord] at hr
      | arr xs => simp [safeRecord] at hr
      | obj fs =>
          have hofs : fs.length ≤ (serFields fs).length := (serFields_len_ge fs).1
          rw [show elemsNeed (Json.obj fs :: rs')
            = max (objNeed (Json.obj fs)) (elemsNeed rs') + 1 from rfl]
          rw [show serElems (Json.obj fs :: rs')
            = serJson (Json.obj fs) ++ serElemsTail rs' from rfl]
          rw [List.length_append, serJson_obj_len]
          simp only [objNeed]
          cases rs' with
          | nil =>
              rw [show serElemsTail ([] : List Json) = [] from rfl]
              simp only [elemsNeed, List.length_nil]
              omega
          | cons r2 rs'' =>
              have hlen : (serElemsTail (r2 :: rs'')).length
                  = (serElems (r2 :: rs'')).length + 1 := by
                rw [show serElemsTail (r2 :: rs'')
                  = ',' :: serElems (r2 :: rs'') from rfl]
                simp
              rw [hlen]
              omega

/-- The full `JSON.parse` model inverts serialization on safe outputs. -/
theorem jsonParseL_ser (rs : List Json) (hsafe : safeOutput rs = true) :
    jsonParseL (serJson (Json.arr rs)) = some (Json.arr rs) := by
  unfold jsonParseL
  obtain ⟨k, hk⟩ : ∃ k, (serJson (Json.arr rs)).length + 2
      = k + elemsNeed rs + 1 := by
    refine ⟨(serJson (Json.arr rs)).length + 2 - (elemsNeed rs + 1), ?_⟩
    have h1 := elemsNeed_le rs hsafe
    have h2 : (serJson (Json.arr rs)).length = (serElems rs).length + 2 := by
      rw [show serJson (Json.arr rs) = '[' :: (serElems rs ++ [']']) from rfl]
      simp
    omega
  rw [hk]
  have harr := parseValue_arr_ser rs k [] hsafe
  rw [List.append_nil] at harr
  rw [harr]
  rfl

/-- Safe characters are inert for every cleanup pass. -/
theorem safeChar_serCharOk {c : Char} (h : safeChar c = true) :
    serCharOk c = true := by
  simp only [safeChar, Bool.and_eq_true] at h
  obtain ⟨⟨⟨⟨⟨⟨h32, h7f⟩, hq⟩, hbs⟩, hbt⟩, hcm⟩, hws⟩ := h
  simp only [serCharOk, Bool.and_eq_true]
  refine ⟨⟨hbt, ?_⟩, hws⟩
  rw [Bool.not_eq_true']
  rw [Bool.not_eq_true'] at h7f
  simp only [isCtrlStrip, Bool.or_eq_false_iff]
  refine ⟨?_, h7f⟩
  have h32' : 32 ≤ c.toNat := of_decide_eq_true h32
  simp only [decide_eq_false_iff_not]
  omega

/-- An inert character is not a newline. -/
theorem serCharOk_ne_nl {c : Char} (h : serCharOk c = true) : c ≠ '\n' := by
  intro hc
  subst hc
  simp [serCharOk, isJsWs] at h

/-- An inert character is not a backtick. -/
theorem serCharOk_ne_btick {c : Char} (h : serCharOk c = true) : c ≠ btick := by
  simp only [serCharOk, Bool.and_eq_true, decide_eq_true_eq] at h
  exact h.1.1

/-- An inert character is not stripped as a control character. -/
theorem serCharOk_not_ctrl {c : Char} (h : serCharOk c = true) :
    isCtrlStrip c = false := by
  simp only [serCharOk, Bool.and_eq_true, Bool.not_eq_true'] at h
  exact h.1.2

/-- An inert whitespace character is a plain space. -/
theorem serCharOk_ws_space {c : Char} (h : serCharOk c = true)
    (hw : isJsWs c = true) : c = ' ' := by
  simp only [serCharOk, Bool.and_eq_true, Bool.or_eq_true, Bool.not_eq_true',
    decide_eq_true_eq] at h
  rcases h.2 with h1 | h2
  · rw [hw] at h1; exact absurd h1 (by simp)
  · exact h2

/-- The fence pass is the identity when the pattern head never occurs. -/
theorem stripFencePassF_id {p : Char} {ps : List Char} :
    ∀ (fuel : Nat) (cs : List Char), cs.length < fuel → p ∉ cs →
      stripFencePassF p ps fuel cs = cs := by
  intro fuel
  induction fuel with
  | zero => intro cs h _; exact absurd h (Nat.not_lt_zero _)
  | succ f ih =>
      intro cs hlen hmem
      cases cs with
      | nil => rfl
      | cons c cs' =>
          rw [stripFencePassF]
          rw [if_neg (fun hp => hmem (by
            have := (List.cons_prefix_cons.mp (List.isPrefixOf_iff_prefix.mp hp)).1
            exact this ▸ List.mem_cons_self _ _))]
          simp only [List.length_cons] at hlen
          rw [ih cs' (by omega) (fun hm => hmem (List.mem_cons_of_mem _ hm))]

/-- Both fence passes are the identity on backtick-free text. -/
theorem stripFences_id {cs : List Char} (h : btick ∉ cs) :
    stripFences cs = cs := by
  unfold stripFences stripFencePass
  rw [stripFencePassF_id _ _ (by omega) h, stripFencePassF_id _ _ (by omega) h]

/-- The control strip is the identity on control-free text. -/
theorem stripControl_id {cs : List Char}
    (h : ∀ c ∈ cs, isCtrlStrip c = false) : stripControl cs = cs := by
  unfold stripControl
  rw [List.filter_eq_self.mpr]
  intro a ha
  simp [h a ha]

/-- The newline replacement is the identity on newline-free text. -/
theorem mapNl_id {cs : List Char} (h : ∀ c ∈ cs, c ≠ '\n') :
    mapNlToSpace cs = cs := by
  unfold mapNlToSpace
  induction cs with
  | nil => rfl
  | cons c cs' ih =>
      rw [List.map_cons]
      rw [if_neg (h c (List.mem_cons_self _ _))]
      rw [ih (fun c2 hm => h c2 (List.mem_cons_of_mem _ hm))]

/-- The adjacency predicates survive dropping the head. -/
theorem noWsRun_tail {c : Char} {cs : List Char} (h : noWsRun (c :: cs) = true) :
    noWsRun cs = true := by
  cases cs with
  | nil => rfl
  | cons c2 cs' =>
      simp only [noWsRun, Bool.and_eq_true] at h
      exact h.2

/-- The comma predicate survives dropping the head. -/
theorem commaOk_tail {c : Char} {cs : List Char} (h : commaOk (c :: cs) = true) :
    commaOk cs = true := by
  cases cs with
  | nil => rfl
  | cons c2 cs' =>
      simp only [commaOk, Bool.and_eq_true] at h
      exact h.2

/-- The comma cleanup is the identity when every comma is followed by a
quote or an opening brace. -/
theorem replaceCommaCloseF_id (closer : Char)
    (hcl : closer = rbrace ∨ closer = ']') :
    ∀ (fuel : Nat) (cs : List Char), cs.length < fuel → commaOk cs = true →
      replaceCommaCloseF closer fuel cs = cs := by
  intro fuel
  induction fuel with
  | zero => intro cs h _; exact absurd h (Nat.not_lt_zero _)
  | succ f ih =>
      intro cs hlen hok
      cases cs with
      | nil => rfl
      | cons c cs' =>
          simp only [List.length_cons] at hlen
          rw [replaceCommaCloseF]
          by_cases hc : c = ','
          · subst hc
            have hmw : matchWsClose closer cs' = none := by
              cases cs' with
              | nil => rfl
              | cons c2 cs'' =>
                  simp only [commaOk, Bool.and_eq_true, Bool.or_eq_true,
                    decide_eq_true_eq] at hok
                  have hc2 : c2 = '"' ∨ c2 = lbrace := by
                    rcases hok.1 with (h1 | h1) | h1
                    · exact absurd rfl h1
                    · exact Or.inl h1
                    · exact Or.inr h1
                  have hnws : isJsWs c2 = false := by
                    rcases hc2 with rfl | rfl <;> decide
                  have hnecl : c2 ≠ closer := by
                    rcases hc2 with rfl | rfl <;> rcases hcl with rfl | rfl <;> decide
                  unfold matchWsClose
                  rw [List.dropWhile_cons, hnws]
                  simp only [Bool.false_eq_true, if_false]
                  rw [if_neg hnecl]
            rw [if_pos rfl, hmw]
            rw [ih cs' (by omega) (commaOk_tail hok)]
          · rw [if_neg hc]
            rw [ih cs' (by omega) (commaOk_tail hok)]

/-- The whitespace collapse is the identity when whitespace characters
are isolated plain spaces. -/
theorem collapseWsF_id :
    ∀ (fuel : Nat) (cs : List Char), cs.length < fuel → noWsRun cs = true →
      (∀ c ∈ cs, serCharOk c = true) → collapseWsF fuel cs = cs := by
  intro fuel
  induction fuel with
  | zero => intro cs h _ _; exact absurd h (Nat.not_lt_zero _)
  | succ f ih =>
      intro cs hlen hws hok
      cases cs with
      | nil => rfl
      | cons c cs' =>
          simp only [List.length_cons] at hlen
          rw [collapseWsF]
          by_cases hc : isJsWs c = true
          · rw [if_pos hc]
            have hsp : c = ' ' :=
              serCharOk_ws_space (hok c (List.mem_cons_self _ _)) hc
            have hdw : cs'.dropWhile isJsWs = cs' := by
              cases cs' with
              | nil => rfl
              | cons c2 cs'' =>
                  simp only [noWsRun, Bool.and_eq_true, Bool.not_eq_true',
                    Bool.and_eq_false_iff] at hws
                  rcases hws.1 with h1 | h1
                  · rw [hc] at h1; exact absurd h1 (by simp)
                  · rw [List.dropWhile_cons, h1]
                    simp
            rw [hdw]
            rw [ih cs' (by omega) (noWsRun_tail hws)
              (fun c2 hm => hok c2 (List.mem_cons_of_mem _ hm))]
            rw [hsp]
          · rw [if_neg hc]
            rw [ih cs' (by omega) (noWsRun_tail hws)
              (fun c2 hm => hok c2 (List.mem_cons_of_mem _ hm))]

/-- The whole substring-cleanup chain is the identity on inert text. -/
theorem cleanupJson_id {cs : List Char}
    (hok : ∀ c ∈ cs, serCharOk c = true) (hws : noWsRun cs = true)
    (hcm : commaOk cs = true) : cleanupJson cs = cs := by
  unfold cleanupJson replaceCommaClose collapseWs
  rw [replaceCommaCloseF_id rbrace (Or.inl rfl) _ _ (by omega) hcm]
  rw [replaceCommaCloseF_id ']' (Or.inr rfl) _ _ (by omega) hcm]
  rw [mapNl_id (fun c hm => serCharOk_ne_nl (hok c hm))]
  rw [collapseWsF_id _ _ (by omega) hws hok]

/-- Every character of a safe string literal is inert. -/
theorem serStrL_mem_ok {s : String}
    (h : ∀ c ∈ s.toList, safeChar c = true) :
    ∀ c ∈ serStrL s, serCharOk c = true := by
  intro c hm
  rw [serStrL_safe h] at hm
  rcases List.mem_cons.mp hm with rfl | hm2
  · decide
  · rcases List.mem_append.mp hm2 with hbody | hq
    · exact safeChar_serCharOk (h c hbody)
    · rcases List.mem_singleton.mp hq with rfl
      decide

/-- A safe field is a safe key with a safe string value. -/
theorem fieldSafe_str {k : String} {v : Json} (h : fieldSafe (k, v) = true) :
    ∃ vs : String, v = Json.str vs ∧
      (∀ c ∈ k.toList, safeChar c = true) ∧ noTwoSpaces k.toList = true ∧
      (∀ c ∈ vs.toList, safeChar c = true) ∧ noTwoSpaces vs.toList = true := by
  cases v with
  | null => simp [fieldSafe] at h
  | bool b => simp [fieldSafe] at h
  | num lx => simp [fieldSafe] at h
  | arr xs => simp [fieldSafe] at h
  | obj fs => simp [fieldSafe] at h
  | str vs =>
      simp only [fieldSafe, safeStrL, Bool.and_eq_true, List.all_eq_true] at h
      exact ⟨vs, rfl, h.1.1, h.1.2, h.2.1, h.2.2⟩

/-- A safe record is a flat object of safe fields with unique keys. -/
theorem safeRecord_obj {r : Json} (h : safeRecord r = true) :
    ∃ fs, r = Json.obj fs ∧ fs.all fieldSafe = true ∧ keysUnique fs = true := by
  cases r with
  | null => simp [safeRecord] at h
  | bool b => simp [safeRecord] at h
  | num lx => simp [safeRecord] at h
  | str s => simp [safeRecord] at h
  | arr xs => simp [safeRecord] at h
  | obj fs =>
      simp only [safeRecord, Bool.and_eq_true] at h
      exact ⟨fs, rfl, h.1, h.2⟩

/-- Every character of a safe serialized field list is inert. -/
theorem serFields_mem_ok : ∀ (fs : List (String × Json)),
    fs.all fieldSafe = true →
    (∀ c ∈ serFields fs, serCharOk c = true) ∧
    (∀ c ∈ serFieldsTail fs, serCharOk c = true) := by
  intro fs
  induction fs with
  | nil =>
      intro _
      exact ⟨by intro c hm; simp [serFields] at hm,
             by intro c hm; simp [serFieldsTail] at hm⟩
  | cons f fs' ih =>
      intro hall
      obtain ⟨k, v⟩ := f
      simp only [List.all_cons, Bool.and_eq_true] at hall
      obtain ⟨hf, hall'⟩ := hall
      obtain ⟨vs, rfl, hks, _, hvs, _⟩ := fieldSafe_str hf
      obtain ⟨ih1, ih2⟩ := ih hall'
      have hcore : ∀ c, c ∈ serStrL k ++ (':' :: serJson (Json.str vs))
          → serCharOk c = true := by
        intro c hm
        rcases List.mem_append.mp hm with hm2 | hm2
        · exact serStrL_mem_ok hks c hm2
        · rcases List.mem_cons.mp hm2 with rfl | hm3
          · decide
          · exact serStrL_mem_ok hvs c hm3
      constructor
      · intro c hm
        rw [serFields] at hm
        rcases List.mem_append.mp hm with hm1 | hm1
        · exact hcore c hm1
        · exact ih2 c hm1
      · intro c hm
        rw [serFieldsTail] at hm
        rcases List.mem_cons.mp hm with rfl | hm1
        · decide
        · rcases List.mem_append.mp hm1 with hm2 | hm2
          · exact hcore c hm2
          · exact ih2 c hm2

/-- Every character of a safe serialized record list is inert. -/
theorem serElems_mem_ok : ∀ (rs : List Json), safeOutput rs = true →
    (∀ c ∈ serElems rs, serCharOk c = true) ∧
    (∀ c ∈ serElemsTail rs, serCharOk c = true) := by
  intro rs
  induction rs with
  | nil =>
      intro _
      exact ⟨by intro c hm; simp [serElems] at hm,
             by intro c hm; simp [serElemsTail] at hm⟩
  | cons r rs' ih =>
      intro h
      simp only [safeOutput, List.all_cons, Bool.and_eq_true] at h
      obtain ⟨hr, hrs'⟩ := h
      obtain ⟨fs, rfl, hfs, _⟩ := safeRecord_obj hr
      obtain ⟨ih1, ih2⟩ := ih hrs'
      have hobj : ∀ c ∈ serJson (Json.obj fs), serCharOk c = true := by
        intro c hm
        rw [show serJson (Json.obj fs)
          = lbrace :: (serFields fs ++ [rbrace]) from rfl] at hm
        rcases List.mem_cons.mp hm with rfl | hm1
        · decide
        · rcases List.mem_append.mp hm1 with hm2 | hm2
          · exact (serFields_mem_ok fs hfs).1 c hm2
          · rcases List.mem_singleton.mp hm2 with rfl
            decide
      constructor
      · intro c hm
        rw [show serElems (Json.obj fs :: rs')
          = serJson (Json.obj fs) ++ serElemsTail rs' from rfl] at hm
        rcases List.mem_append.mp hm with hm1 | hm1
        · exact hobj c hm1
        · exact ih2 c hm1
      · intro c hm
        rw [show serElemsTail (Json.obj fs :: rs')
          = ',' :: (serJson (Json.obj fs) ++ serElemsTail rs') from rfl] at hm
        rcases List.mem_cons.mp hm with rfl | hm1
        · decide
        · rcases List.mem_append.mp hm1 with hm2 | hm2
          · exact hobj c hm2
          · exact ih2 c hm2

/-- Every character of the serialized output array is inert. -/
theorem serArr_mem_ok {rs : List Json} (h : safeOutput rs = true) :
    ∀ c ∈ serJson (Json.arr rs), serCharOk c = true := by
  intro c hm
  rw [show serJson (Json.arr rs) = '[' :: (serElems rs ++ [']']) from rfl] at hm
  rcases List.mem_cons.mp hm with rfl | hm1
  · decide
  · rcases List.mem_append.mp hm1 with hm2 | hm2
    · exact (serElems_mem_ok rs h).1 c hm2
    · rcases List.mem_singleton.mp hm2 with rfl
      decide

/-- A safe character is not a comma. -/
theorem safeChar_ne_comma {c : Char} (h : safeChar c = true) : c ≠ ',' := by
  simp only [safeChar, Bool.and_eq_true, decide_eq_true_eq] at h
  exact h.1.2

/-- The tail of a two-adjacent-space-free list is too. -/
theorem noTwoSpaces_tail {c : Char} {cs : List Char}
    (h : noTwoSpaces (c :: cs) = true) : noTwoSpaces cs = true := by
  cases cs with
  | nil => rfl
  | cons c2 cs2 =>
      simp only [noTwoSpaces, Bool.and_eq_true] at h
      exact h.2

/-- Prepending a non-whitespace character preserves `noWsRun`. -/
theorem noWsRun_cons_nonws {c : Char} {cs : List Char} (hc : isJsWs c = false)
    (h : noWsRun cs = true) : noWsRun (c :: cs) = true := by
  cases cs with
  | nil => rfl
  | cons c2 cs2 =>
      simp only [noWsRun, Bool.and_eq_true]
      refine ⟨?_, h⟩
      rw [hc]
      rfl

/-- Prepending a non-comma character preserves `commaOk`. -/
theorem commaOk_cons_ne {c : Char} {cs : List Char} (hc : c ≠ ',')
    (h : commaOk cs = true) : commaOk (c :: cs) = true := by
  cases cs with
  | nil => rfl
  | cons c2 cs2 =>
      simp only [commaOk, Bool.and_eq_true, Bool.or_eq_true, decide_eq_true_eq]
      exact ⟨Or.inl (Or.inl hc), h⟩

/-- A comma immediately followed by a quote or an opening brace preserves
`commaOk`. -/
theorem commaOk_cons_comma {c2 : Char} {cs2 : List Char}
    (hc2 : c2 = '"' ∨ c2 = lbrace) (h : commaOk (c2 :: cs2) = true) :
    commaOk (',' :: c2 :: cs2) = true := by
  simp only [commaOk, Bool.and_eq_true, Bool.or_eq_true, decide_eq_true_eq]
  rcases hc2 with rfl | rfl
  · exact ⟨Or.inl (Or.inr rfl), h⟩
  · exact ⟨Or.inr rfl, h⟩

/-- Appending a safe-character block (no two adjacent spaces) before a
whitespace-run-free continuation whose head is not whitespace preserves
`noWsRun`. -/
theorem noWsRun_append_safe : ∀ (v rest : List Char),
    (∀ c ∈ v, safeChar c = true) → noTwoSpaces v = true →
    noWsRun rest = true →
    (∀ r rs2, rest = r :: rs2 → isJsWs r = false) →
    noWsRun (v ++ rest) = true := by
  intro v
  induction v with
  | nil =>
      intro rest _ _ h _
      simpa using h
  | cons c v2 ih =>
      intro rest hsafe hnts hrest hhead
      rw [List.cons_append]
      cases hv2 : v2 with
      | nil =>
          subst hv2
          cases rest with
          | nil => rfl
          | cons r rs2 =>
              simp only [List.nil_append]
              simp only [noWsRun, Bool.and_eq_true]
              refine ⟨?_, hrest⟩
              rw [hhead r rs2 rfl, Bool.and_false]
              rfl
      | cons c2 v3 =>
          subst hv2
          have hrec := ih rest
            (fun d hd => hsafe d (List.mem_cons_of_mem c hd))
            (noTwoSpaces_tail hnts) hrest hhead
          rw [List.cons_append] at hrec ⊢
          simp only [noWsRun, Bool.and_eq_true]
          refine ⟨?_, hrec⟩
          by_cases hw1 : isJsWs c = true
          · by_cases hw2 : isJsWs c2 = true
            · have hs1 : c = ' ' := serCharOk_ws_space
                (safeChar_serCharOk (hsafe c (List.mem_cons_self c _))) hw1
              have hs2 : c2 = ' ' := serCharOk_ws_space
                (safeChar_serCharOk
                  (hsafe c2 (List.mem_cons_of_mem c (List.mem_cons_self c2 _))))
                hw2
              subst hs1; subst hs2
              simp [noTwoSpaces] at hnts
            · rw [Bool.not_eq_true] at hw2
              rw [hw2, Bool.and_false]
              rfl
          · rw [Bool.not_eq_true] at hw1
            rw [hw1, Bool.false_and]
            rfl

/-- Appending a comma-free block before a comma-disciplined continuation
preserves `commaOk`. -/
theorem commaOk_append_nocomma : ∀ (v rest : List Char),
    (∀ c ∈ v, c ≠ ',') → commaOk rest = true →
    commaOk (v ++ rest) = true := by
  intro v
  induction v with
  | nil =>
      intro rest _ h
      simpa using h
  | cons c v2 ih =>
      intro rest hnc hrest
      rw [List.cons_append]
      exact commaOk_cons_ne (hnc c (List.mem_cons_self c _))
        (ih rest (fun d hd => hnc d (List.mem_cons_of_mem c hd)) hrest)

/-- Serialized safe fields have no whitespace runs and no misplaced
commas, for any disciplined continuation starting with a non-whitespace
character. -/
theorem serFields_adj : ∀ (fs : List (String × Json)),
    fs.all fieldSafe = true →
    ∀ (rest : List Char), noWsRun rest = true → commaOk rest = true →
    (∀ r rs2, rest = r :: rs2 → isJsWs r = false) →
    (noWsRun (serFields fs ++ rest) = true ∧
      commaOk (serFields fs ++ rest) = true) ∧
    (noWsRun (serFieldsTail fs ++ rest) = true ∧
      commaOk (serFieldsTail fs ++ rest) = true) := by
  intro fs
  induction fs with
  | nil =>
      intro _ rest h1 h2 _
      rw [show serFields ([] : List (String × Json)) = [] from rfl,
        show serFieldsTail ([] : List (String × Json)) = [] from rfl]
      simp only [List.nil_append]
      exact ⟨⟨h1, h2⟩, ⟨h1, h2⟩⟩
  | cons f fs2 ih =>
      intro hall rest hws hcm hhead
      obtain ⟨k, v⟩ := f
      simp only [List.all_cons, Bool.and_eq_true] at hall
      obtain ⟨hf, hall2⟩ := hall
      obtain ⟨vs, rfl, hks, hknts, hvs, hvnts⟩ := fieldSafe_str hf
      obtain ⟨itw, itc⟩ := (ih hall2 rest hws hcm hhead).2
      have hX0head : ∀ r rs2, serFieldsTail fs2 ++ rest = r :: rs2 →
          isJsWs r = false := by
        cases fs2 with
        | nil =>
            intro r rs2 heq
            rw [show serFieldsTail ([] : List (String × Json)) = [] from rfl,
              List.nil_append] at heq
            exact hhead r rs2 heq
        | cons g gs =>
            intro r rs2 heq
            obtain ⟨gk, gv⟩ := g
            rw [show serFieldsTail ((gk, gv) :: gs)
              = ',' :: (serStrL gk ++ (':' :: serJson gv) ++ serFieldsTail gs)
              from rfl, List.cons_append] at heq
            injection heq with hh _
            rw [← hh]
            decide
      have hnorm : serFields ((k, Json.str vs) :: fs2) ++ rest
          = '"' :: (k.toList ++ ('"' :: ':' :: '"'
            :: (vs.toList ++ ('"' :: (serFieldsTail fs2 ++ rest))))) := by
        rw [show serFields ((k, Json.str vs) :: fs2)
          = serStrL k ++ (':' :: serJson (Json.str vs)) ++ serFieldsTail fs2
          from rfl]
        rw [show serJson (Json.str vs) = serStrL vs from rfl]
        rw [serStrL_safe hks, serStrL_safe hvs]
        simp [List.cons_append, List.append_assoc]
      have h1w : noWsRun ('"' :: (serFieldsTail fs2 ++ rest)) = true :=
        noWsRun_cons_nonws (by decide) itw
      have h1c : commaOk ('"' :: (serFieldsTail fs2 ++ rest)) = true :=
        commaOk_cons_ne (by decide) itc
      have h2w : noWsRun (vs.toList
          ++ ('"' :: (serFieldsTail fs2 ++ rest))) = true :=
        noWsRun_append_safe _ _ hvs hvnts h1w
          (fun r rs2 heq => by injection heq with hh _; rw [← hh]; decide)
      have h2c : commaOk (vs.toList
          ++ ('"' :: (serFieldsTail fs2 ++ rest))) = true :=
        commaOk_append_nocomma _ _
          (fun d hd => safeChar_ne_comma (hvs d hd)) h1c
      have h3w : noWsRun ('"' :: (vs.toList
          ++ ('"' :: (serFieldsTail fs2 ++ rest)))) = true :=
        noWsRun_cons_nonws (by decide) h2w
      have h3c : commaOk ('"' :: (vs.toList
          ++ ('"' :: (serFieldsTail fs2 ++ rest)))) = true :=
        commaOk_cons_ne (by decide) h2c
      have h4w : noWsRun (':' :: '"' :: (vs.toList
          ++ ('"' :: (serFieldsTail fs2 ++ rest)))) = true :=
        noWsRun_cons_nonws (by decide) h3w
      have h4c : commaOk (':' :: '"' :: (vs.toList
          ++ ('"' :: (serFieldsTail fs2 ++ rest)))) = true :=
        commaOk_cons_ne (by decide) h3c
      have h5w : noWsRun ('"' :: ':' :: '"' :: (vs.toList
          ++ ('"' :: (serFieldsTail fs2 ++ rest)))) = true :=
        noWsRun_cons_nonws (by decide) h4w
      have h5c : commaOk ('"' :: ':' :: '"' :: (vs.toList
          ++ ('"' :: (serFieldsTail fs2 ++ rest)))) = true :=
        commaOk_cons_ne (by decide) h4c
      have h6w : noWsRun (k.toList ++ ('"' :: ':' :: '"' :: (vs.toList
          ++ ('"' :: (serFieldsTail fs2 ++ rest))))) = true :=
        noWsRun_append_safe _ _ hks hknts h5w
          (fun r rs2 heq => by injection heq with hh _; rw [← hh]; decide)
      have h6c : commaOk (k.toList ++ ('"' :: ':' :: '"' :: (vs.toList
          ++ ('"' :: (serFieldsTail fs2 ++ rest))))) = true :=
        commaOk_append_nocomma _ _
          (fun d hd => safeChar_ne_comma (hks d hd)) h5c
      have h7w : noWsRun ('"' :: (k.toList ++ ('"' :: ':' :: '"'
          :: (vs.toList ++ ('"' :: (serFieldsTail fs2 ++ rest)))))) = true :=
        noWsRun_cons_nonws (by decide) h6w
      have h7c : commaOk ('"' :: (k.toList ++ ('"' :: ':' :: '"'
          :: (vs.toList ++ ('"' :: (serFieldsTail fs2 ++ rest)))))) = true :=
        commaOk_cons_ne (by decide) h6c
      refine ⟨⟨by rw [hnorm]; exact h7w, by rw [hnorm]; exact h7c⟩, ?_, ?_⟩
      · rw [show serFieldsTail ((k, Json.str vs) :: fs2) ++ rest
          = ',' :: (serFields ((k, Json.str vs) :: fs2) ++ rest) from rfl]
        rw [hnorm]
        exact noWsRun_cons_nonws (by decide) h7w
      · rw [show serFieldsTail ((k, Json.str vs) :: fs2) ++ rest
          = ',' :: (serFields ((k, Json.str vs) :: fs2) ++ rest) from rfl]
        rw [hnorm]
        exact commaOk_cons_comma (Or.inl rfl) h7c

/-- Serialized safe records have no whitespace runs and no misplaced
commas, for any disciplined continuation starting with a non-whitespace
character. -/
theorem serElems_adj : ∀ (rs : List Json), safeOutput rs = true →
    ∀ (rest : List Char), noWsRun rest = true → commaOk rest = true →
    (∀ r rs2, rest = r :: rs2 → isJsWs r = false) →
    (noWsRun (serElems rs ++ rest) = true ∧
      commaOk (serElems rs ++ rest) = true) ∧
    (noWsRun (serElemsTail rs ++ rest) = true ∧
      commaOk (serElemsTail rs ++ rest) = true) := by
  intro rs
  induction rs with
  | nil =>
      intro _ rest h1 h2 _
      rw [show serElems ([] : List Json) = [] from rfl,
        show serElemsTail ([] : List Json) = [] from rfl]
      simp only [List.nil_append]
      exact ⟨⟨h1, h2⟩, ⟨h1, h2⟩⟩
  | cons r rs2 ih =>
      intro h rest hws hcm hhead
      simp only [safeOutput, List.all_cons, Bool.and_eq_true] at h
      obtain ⟨hr, hrs⟩ := h
      have hrs2 : safeOutput rs2 = true := hrs
      obtain ⟨fs, rfl, hfs, _⟩ := safeRecord_obj hr
      obtain ⟨itw, itc⟩ := (ih hrs2 rest hws hcm hhead).2
      have hX0head : ∀ r2 rr, serElemsTail rs2 ++ rest = r2 :: rr →
          isJsWs r2 = false := by
        cases rs2 with
        | nil =>
            intro r2 rr heq
            rw [show serElemsTail ([] : List Json) = [] from rfl,
              List.nil_append] at heq
            exact hhead r2 rr heq
        | cons x xs =>
            intro r2 rr heq
            rw [show serElemsTail (x :: xs)
              = ',' :: (serJson x ++ serElemsTail xs) from rfl,
              List.cons_append] at heq
            injection heq with hh _
            rw [← hh]
            decide
      have hbw : noWsRun (rbrace :: (serElemsTail rs2 ++ rest)) = true :=
        noWsRun_cons_nonws (by decide) itw
      have hbc : commaOk (rbrace :: (serElemsTail rs2 ++ rest)) = true :=
        commaOk_cons_ne (by decide) itc
      have hbhead : ∀ r2 rr, rbrace :: (serElemsTail rs2 ++ rest) = r2 :: rr →
          isJsWs r2 = false := fun r2 rr heq => by
        injection heq with hh _
        rw [← hh]
        decide
      obtain ⟨hfw, hfc⟩ := (serFields_adj fs hfs
        (rbrace :: (serElemsTail rs2 ++ rest)) hbw hbc hbhead).1
      have hnorm : serElems (Json.obj fs :: rs2) ++ rest
          = lbrace :: (serFields fs
            ++ (rbrace :: (serElemsTail rs2 ++ rest))) := by
        rw [show serElems (Json.obj fs :: rs2)
          = serJson (Json.obj fs) ++ serElemsTail rs2 from rfl,
          show serJson (Json.obj fs)
          = lbrace :: (serFields fs ++ [rbrace]) from rfl]
        simp [List.cons_append, List.append_assoc]
      have hlw : noWsRun (lbrace :: (serFields fs
          ++ (rbrace :: (serElemsTail rs2 ++ rest)))) = true :=
        noWsRun_cons_nonws (by decide) hfw
      have hlc : commaOk (lbrace :: (serFields fs
          ++ (rbrace :: (serElemsTail rs2 ++ rest)))) = true :=
        commaOk_cons_ne (by decide) hfc
      refine ⟨⟨by rw [hnorm]; exact hlw, by rw [hnorm]; exact hlc⟩, ?_, ?_⟩
      · rw [show serElemsTail (Json.obj fs :: rs2) ++ rest
          = ',' :: (serElems (Json.obj fs :: rs2) ++ rest) from rfl]
        rw [hnorm]
        exact noWsRun_cons_nonws (by decide) hlw
      · rw [show serElemsTail (Json.obj fs :: rs2) ++ rest
          = ',' :: (serElems (Json.obj fs :: rs2) ++ rest) from rfl]
        rw [hnorm]
        exact commaOk_cons_comma (Or.inr rfl) hlc

/-- The serialized output array has no whitespace runs and no misplaced
commas. -/
theorem serArr_adj {rs : List Json} (h : safeOutput rs = true) :
    noWsRun (serJson (Json.arr rs)) = true ∧
    commaOk (serJson (Json.arr rs)) = true := by
  have hrw : noWsRun ([']'] : List Char) = true := rfl
  have hrc : commaOk ([']'] : List Char) = true := rfl
  have hrh : ∀ r rs2, ([']'] : List Char) = r :: rs2 → isJsWs r = false := by
    intro r rs2 heq
    injection heq with hh _
    rw [← hh]
    decide
  obtain ⟨h1, h2⟩ := (serElems_adj rs h [']'] hrw hrc hrh).1
  constructor
  · rw [show serJson (Json.arr rs) = '[' :: (serElems rs ++ [']']) from rfl]
    exact noWsRun_cons_nonws (by decide) h1
  · rw [show serJson (Json.arr rs) = '[' :: (serElems rs ++ [']']) from rfl]
    exact commaOk_cons_ne (by decide) h2

/-- `dropWhile` is the identity on a list whose head fails the predicate. -/
theorem dropWhile_cons_false {p : Char → Bool} {c : Char} {cs : List Char}
    (h : p c = false) : List.dropWhile p (c :: cs) = c :: cs := by
  rw [List.dropWhile_cons, h]
  simp

/-- `trim` is the identity on a bracket-wrapped list. -/
theorem jsTrimL_wrapped (A : List Char) :
    jsTrimL ('[' :: (A ++ [']'])) = '[' :: (A ++ [']']) := by
  unfold jsTrimL
  rw [dropWhile_cons_false (by decide)]
  rw [show ('[' :: (A ++ [']'])).reverse = ']' :: (A.reverse ++ ['[']) from by
    simp]
  rw [dropWhile_cons_false (by decide)]
  simp

/-- `indexOf` steps over a non-matching head. -/
theorem firstIdxOf_cons_ne {c t : Char} {cs : List Char} (h : c ≠ t) :
    firstIdxOf (c :: cs) t = (firstIdxOf cs t).map (· + 1) := by
  simp only [firstIdxOf]
  rw [if_neg h]

/-- Re-parsing its own serialized output, a safe record list round-trips
through the whole four-tier extractor: tier 1 succeeds and returns the
original records. -/
theorem extract_stringify (rs : List Json) (hsafe : safeOutput rs = true) :
    extractAndParseJSON (jsonStringify (Json.arr rs)) = rs := by
  have hmem := serArr_mem_ok hsafe
  obtain ⟨hws, hcm⟩ := serArr_adj hsafe
  have htoList : (jsonStringify (Json.arr rs)).toList
      = serJson (Json.arr rs) := rfl
  have hL : serJson (Json.arr rs) = '[' :: (serElems rs ++ [']']) := rfl
  have hclean : cleanOf (jsonStringify (Json.arr rs))
      = serJson (Json.arr rs) := by
    unfold cleanOf
    rw [htoList, hL, jsTrimL_wrapped, ← hL]
    rw [stripFences_id
      (fun hbt => absurd rfl (serCharOk_ne_btick (hmem btick hbt)))]
    exact stripControl_id (fun c hmc => serCharOk_not_ctrl (hmem c hmc))
  have hidx : firstIdxOf (serJson (Json.arr rs)) '[' = some 0 := by
    rw [hL]
    simp [firstIdxOf]
  have hca : chooseArray (serJson (Json.arr rs)) = true := by
    unfold chooseArray
    rw [hidx]
    have hlb : firstIdxOf (serJson (Json.arr rs)) lbrace
        = (firstIdxOf (serElems rs ++ [']']) lbrace).map (· + 1) := by
      rw [hL]
      exact firstIdxOf_cons_ne (by decide)
    rcases hfo2 : firstIdxOf (serElems rs ++ [']']) lbrace with _ | n
    · rw [hfo2] at hlb
      rw [hlb]
      rfl
    · rw [hfo2] at hlb
      rw [hlb]
      simp
  have hlast : lastIdxOf (serJson (Json.arr rs)) ']'
      = some ((serElems rs).length + 1) := by
    unfold lastIdxOf
    rw [hL]
    rw [show ('[' :: (serElems rs ++ [']'])).reverse
      = ']' :: ((serElems rs).reverse ++ ['[']) from by simp]
    rw [show firstIdxOf (']' :: ((serElems rs).reverse ++ ['['])) ']'
      = some 0 from by simp [firstIdxOf]]
    simp only [Option.map]
    congr 1
    simp only [List.length_cons, List.length_append]
    simp
  have hsel : tierOneSel (serJson (Json.arr rs))
      = (some 0, some ((serElems rs).length + 1)) := by
    simp [tierOneSel, hca, hidx, hlast]
  have hbounds : tierOneBounds (serJson (Json.arr rs))
      = some (0, (serElems rs).length + 1) := by
    unfold tierOneBounds
    rw [hsel]
    simp
  have hsub : jsSubstringL (serJson (Json.arr rs)) 0
      ((serElems rs).length + 1 + 1) = serJson (Json.arr rs) := by
    unfold jsSubstringL
    rw [List.drop_zero]
    apply List.take_of_length_le
    rw [hL]
    simp [List.length_append]
  have ht1 : tier1 (jsonStringify (Json.arr rs)) = some rs := by
    have hdef : tier1 (jsonStringify (Json.arr rs))
        = match tierOneBounds (cleanOf (jsonStringify (Json.arr rs))) with
          | none => none
          | some (s, e) =>
              match jsonParseL (cleanupJson (jsSubstringL
                  (cleanOf (jsonStringify (Json.arr rs))) s (e + 1))) with
              | some (Json.arr xs) => some xs
              | some v => some [v]
              | none => none := rfl
    rw [hdef, hclean, hbounds]
    simp only []
    rw [hsub]
    rw [cleanupJson_id hmem hws hcm]
    rw [jsonParseL_ser rs hsafe]
  unfold extractAndParseJSON
  rw [ht1]

/-- C8 (amended): re-parsing the JSON-stringified output yields the
original record sequence whenever every record is a flat object of
string fields with distinct keys whose characters survive the tier-1
cleanup untouched (no quotes, backslashes, backticks, commas, control or
non-space whitespace characters, and no two adjacent spaces). -/
theorem c8_amended (aiText : String)
    (hsafe : safeOutput (extractAndParseJSON aiText) = true) :
    extractAndParseJSON (jsonStringify
      (Json.arr (extractAndParseJSON aiText)))
      = extractAndParseJSON aiText :=
  extract_stringify _ hsafe

set_option maxRecDepth 8000 in
theorem c8_amended_witness :
    safeOutput (extractAndParseJSON
      "[\x7b\"Generated article\":\"A\"\x7d]") = true ∧
    extractAndParseJSON (jsonStringify (Json.arr (extractAndParseJSON
      "[\x7b\"Generated article\":\"A\"\x7d]")))
      = extractAndParseJSON "[\x7b\"Generated article\":\"A\"\x7d]" :=
  ⟨by decide, c8_amended _ (by decide)⟩

end NewsApp
